import Mathlib

/-!
# Multipart codec (`multipart.hpp`): decoder state machine and recursive encoder

A shallow embedding of `multipart::detail::decode_recursive`,
`multipart::detail::encode_recursive`, `multipart::decode` and
`multipart::encode` for the owning representation `multipart::part`.

Conventions of the embedding.

* A `std::string` is a `List Char` (one `Char` per byte).
* An input iterator into the range `[sp, end)` is modelled by the range that is
  still ahead of it, i.e. by the suffix `[it, end)` of the input.  Hence
  `it == end` is `it = []`, `*it++` is a pattern match `c :: it1`,
  `std::distance(a, b)` is `a.length - b.length`, and `a + 1 == b` is
  `a.length = b.length + 1`.
* `bool& err` is assumed `false` on entry (as in `decode` and at the recursive
  call site) and is returned in the field `err`.
* Reading through an iterator equal to `end`, and an `assert` on the payload
  kind that would fire, are reported as a `fault`.
* The callbacks of `event_cb` are pure functions; every invocation is recorded,
  in order, in the field `calls`.

The first part of the file holds the embedding and the vocabulary of the
statements (message texts, well-formedness of their pieces); the second part
holds the theorems.
-/

namespace multipart

/-- The carriage-return line-feed pair. -/
def crlf : List Char := ['\r', '\n']

/-- The two dashes that close a final delimiter. -/
def dashes : List Char := ['-', '-']

/-- Discriminant of a part, `part::data_type`. -/
inductive data_type where
  | content_t
  | list_t
  | undefined_t
deriving DecidableEq, Repr

/-- One header, `part::keyvalue_type`. -/
abbrev keyvalue_type := List Char × List Char

/-- The ordered header sequence, `part::prototype_type`. -/
abbrev prototype_type := List keyvalue_type

/-- The owning part `multipart::part`: the fields `boundary_` and `prototype_`
together with the payload selected by `type_` (a string, a list of parts, or
nothing). -/
inductive part where
  | content (boundary_ : List Char) (prototype_ : prototype_type) (data_ : List Char)
  | list (boundary_ : List Char) (prototype_ : prototype_type) (data_ : List part)
  | undefined (boundary_ : List Char) (prototype_ : prototype_type)
deriving Repr

/-- The default-constructed part `Entry()`. -/
def Entry : part := part.undefined [] []

/-- Accessor `part::type()`. -/
def part.type : part → data_type
  | .content _ _ _ => data_type.content_t
  | .list _ _ _ => data_type.list_t
  | .undefined _ _ => data_type.undefined_t

/-- Accessor `part::boundary()`. -/
def part.boundary : part → List Char
  | .content b _ _ => b
  | .list b _ _ => b
  | .undefined b _ => b

/-- Accessor `part::prototype()`. -/
def part.prototype : part → prototype_type
  | .content _ p _ => p
  | .list _ p _ => p
  | .undefined _ p => p

/-- Assignment through `boundary()`: `e.boundary() = b`. -/
def part.set_boundary : part → List Char → part
  | .content _ p c, b => .content b p c
  | .list _ p l, b => .list b p l
  | .undefined _ p, b => .undefined b p

/-- Assignment through `prototype()`: `e.prototype() = p`. -/
def part.set_prototype : part → prototype_type → part
  | .content b _ c, p => .content b p c
  | .list b _ l, p => .list b p l
  | .undefined b _, p => .undefined b p

/-- The statement `e.content() = sv`: the non-const `content()` turns an
undefined part into a content part and asserts the kind otherwise. -/
def part.assign_content : part → List Char → Option part
  | .content b p _, sv => some (.content b p sv)
  | .undefined b p, sv => some (.content b p sv)
  | .list _ _ _, _ => none

/-- The statement `e.list().push_back(x)`: the non-const `list()` turns an
undefined part into an empty list and asserts the kind otherwise. -/
def part.list_push_back : part → part → Option part
  | .list b p l, x => some (.list b p (l ++ [x]))
  | .undefined b p, x => some (.list b p [x])
  | .content _ _ _, _ => none

/-- The four hooks of `event_cb`. -/
inductive hook where
  | boundary
  | header_field
  | header_value
  | part_data
deriving DecidableEq, Repr

/-- The type `callback_func`: a byte range to a status code. -/
abbrev callback_func := List Char → Int

/-- The record `event_cb`; an empty `std::function` is `none`. -/
structure event_cb where
  boundary_ : Option callback_func
  header_field_ : Option callback_func
  header_value_ : Option callback_func
  part_data_ : Option callback_func

/-- The default argument `event_cb ecb = {}` of `decode`. -/
def no_callbacks : event_cb := ⟨none, none, none, none⟩

/-- One callback invocation: which hook, its argument and the status it
returned. -/
structure callback_call where
  which : hook
  arg : List Char
  status : Int
deriving DecidableEq, Repr

/-- The guarded call `if (cb) cb(arg)`: the call is recorded, the returned
status is not used by the caller. -/
def invoke (cb : Option callback_func) (h : hook) (arg : List Char)
    (calls : List callback_call) : List callback_call :=
  match cb with
  | none => calls
  | some f => calls ++ [⟨h, arg, f arg⟩]

/-- The parser states of `detail`. -/
inductive pstate where
  | s_start
  | s_start_boundary
  | s_header_field
  | s_header_value
  | s_part_data
deriving DecidableEq, Repr

/-- The constant `detail::max_recursive_depth`. -/
def max_recursive_depth : Nat := 100

/-- Undefined behaviour that the embedding makes observable. -/
inductive fault where
  | read_past_end
  | payload_assert
  | fuel
deriving DecidableEq, Repr

/-- What a call of `decode_recursive` leaves behind: the part written through
`ret`, the flag `err`, the returned distance and the callback invocations made
during the call. -/
structure decoded where
  ret : part
  err : Bool
  pos : Nat
  calls : List callback_call

/-- Result of a call: a `decoded` record or a fault. -/
abbrev outcome := Except fault decoded

/-- The local variables of one activation of `decode_recursive`. -/
structure frame where
  in_ : List Char
  state : pstate
  boundary : List Char
  key : List Char
  value : List Char
  cbegin : List Char
  cend : List Char
  prototype : prototype_type
  tmp : part
  ret : part
  calls : List callback_call

/-- Outcome of one pass through the body of the `while` loop: `continue` with
an updated frame, or `return`. -/
inductive step_result where
  | next (s : frame)
  | stop (o : outcome)

/-- The string `string_type(&*cbegin, std::distance(cbegin, cend))`. -/
def slice (cbegin cend : List Char) : List Char :=
  cbegin.take (cbegin.length - cend.length)

/-- The statement `err = true; return std::distance(sp, in);`. -/
def fail (sp : List Char) (s : frame) (in_ : List Char) : step_result :=
  .stop (.ok ⟨s.ret, true, sp.length - in_.length, s.calls⟩)

/-- The class `\s` of `std::regex` in the classic locale. -/
def is_space (c : Char) : Bool :=
  c = ' ' || c = '\t' || c = '\n' || c = Char.ofNat 11 || c = Char.ofNat 12 || c = '\r'

/-- The test `std::regex_match(value, "^\s*multipart\/(\S+) boundary=(.*)$")`
(ECMAScript grammar): optional white space, the literal `multipart/`, a
non-empty run of non-space characters, the literal ` boundary=`, and then any
characters other than line terminators up to the end.  Because the run `\S+`
must be followed by a space, only its longest choice can succeed, so the match
is decided without backtracking. -/
def regex_match_multipart (value : List Char) : Bool :=
  let v := value.dropWhile is_space
  let lit := "multipart/".toList
  let r := v.drop lit.length
  let sub := r.takeWhile (fun c => !is_space c)
  let r2 := r.dropWhile (fun c => !is_space c)
  let key := " boundary=".toList
  v.take lit.length = lit && !sub.isEmpty && r2.take key.length = key
    && (r2.drop key.length).all (fun c => c ≠ '\n' && c ≠ '\r')

/-- The literal `"Content-Type"` against which `key` is compared. -/
def content_type_name : List Char := "Content-Type".toList

/-- Body of `case s_start_boundary` for the character `c`, with `in_` the
iterator after `c`. -/
def start_boundary_body (ecb : event_cb) (sp : List Char) (s : frame) (c : Char)
    (in_ : List Char) : step_result :=
  if c = '\r' then
    match in_ with
    | [] => fail sp s []
    | c1 :: in1 =>
      if c1 = '\n' then
        .next { s with in_ := in1, cbegin := in1, cend := in1, state := .s_header_field,
                       calls := invoke ecb.boundary_ .boundary s.boundary s.calls }
      else
        .next { s with in_ := in1, boundary := s.boundary ++ [c1] }
  else
    .next { s with in_ := in_, boundary := s.boundary ++ [c] }

/-- Body of `case s_start`, which falls through into `case s_start_boundary`
with the second dash. -/
def start_body (ecb : event_cb) (sp : List Char) (s : frame) (c : Char)
    (in_ : List Char) : step_result :=
  if c ≠ '-' then fail sp s in_
  else
    match in_ with
    | [] => fail sp s []
    | c1 :: in1 =>
      if c1 ≠ '-' then fail sp s in1
      else
        start_boundary_body ecb sp
          { s with state := .s_start_boundary, boundary := s.boundary ++ [c1] } c1 in1

/-- Body of `case s_header_field`. -/
def header_field_body (ecb : event_cb) (sp : List Char) (s : frame) (c : Char)
    (in_ : List Char) : step_result :=
  if c = '\r' ∨ c = '\n' then fail sp s in_
  else if c = ':' then
    let key := slice s.cbegin s.cend
    .next { s with in_ := in_, key := key, cbegin := in_, cend := in_,
                   calls := invoke ecb.header_field_ .header_field key s.calls,
                   state := .s_header_value }
  else
    .next { s with in_ := in_, cend := in_ }

/-- Body of `case s_header_value`; `rec_call` is the recursive invocation
`decode_recursive(in, end, tmp, error, depth + 1, ecb)`.  The second test
`in == end` of the source (before `in++; // skip \r`) follows a successful
read of `*in` and cannot hold, so it has no branch here; the read `*in` after
that increment is not guarded and is a fault when the input ends there. -/
def header_value_body (rec_call : List Char → part → outcome) (ecb : event_cb)
    (sp : List Char) (s : frame) (c : Char) (in_ : List Char) : step_result :=
  if s.cbegin.length = in_.length + 1 ∧ c = ' ' then
    .next { s with in_ := in_, cbegin := in_, cend := in_ }
  else if c ≠ '\r' then
    .next { s with in_ := in_, cend := in_ }
  else
    let value := slice s.cbegin s.cend
    let s1 : frame := { s with value := value, prototype := s.prototype ++ [(s.key, value)] }
    match in_ with
    | [] => fail sp s1 []
    | c1 :: in1 =>
      if c1 ≠ '\n' then fail sp s1 in1
      else
        match in1 with
        | [] => fail sp s1 []
        | c2 :: in2 =>
          if c2 ≠ '\r' then
            .next { s1 with in_ := in1, cbegin := in1, cend := in1,
                            calls := invoke ecb.header_value_ .header_value value s1.calls,
                            state := .s_header_field }
          else
            match in2 with
            | [] => .stop (.error .read_past_end)
            | c3 :: in3 =>
              if c3 ≠ '\n' then fail sp s1 in2
              else
                let s2 : frame :=
                  { s1 with calls := invoke ecb.header_value_ .header_value value s1.calls }
                if s2.key = content_type_name ∧ regex_match_multipart value = true then
                  match rec_call in3 s2.tmp with
                  | .error f => .stop (.error f)
                  | .ok r =>
                    if r.err then
                      .stop (.ok ⟨s2.ret, true, sp.length - in3.length, s2.calls ++ r.calls⟩)
                    else
                      let in4 := in3.drop r.pos
                      .next { s2 with in_ := in4, tmp := r.ret, cbegin := in4, cend := in4,
                                      calls := s2.calls ++ r.calls, state := .s_part_data }
                else
                  .next { s2 with in_ := in3, cbegin := in3, cend := in3,
                                  state := .s_part_data }

/-- The part completed at a delimiter: the collected content unless a nested
decode already filled `tmp`, then the boundary, then the headers if any were
recorded.  Returns the part and the callback log. -/
def close_part (ecb : event_cb) (s : frame) : Option (part × List callback_call) :=
  let filled : Option (part × List callback_call) :=
    if s.tmp.type = data_type.undefined_t then
      let sv := slice s.cbegin s.cend
      (s.tmp.assign_content sv).map
        (fun t => (t, invoke ecb.part_data_ .part_data sv s.calls))
    else some (s.tmp, s.calls)
  filled.map (fun tc =>
    let t1 := tc.1.set_boundary s.boundary
    (if s.prototype ≠ [] then t1.set_prototype s.prototype else t1, tc.2))

/-- Body of `case s_part_data`. -/
def part_data_body (ecb : event_cb) (sp : List Char) (s : frame) (c : Char)
    (in_ : List Char) : step_result :=
  if c = '\r' then
    match in_ with
    | [] => fail sp s []
    | c1 :: p =>
      if c1 ≠ '\n' then .next { s with in_ := in_, cend := in_ }
      else if p.length < s.boundary.length + 2 then fail sp s p
      else
        let next := p.take (s.boundary.length + 2)
        if s.boundary ++ dashes = next then
          match close_part ecb s with
          | none => .stop (.error .payload_assert)
          | some (tmp, calls) =>
            let ret : Option part :=
              if s.ret.type = data_type.list_t then s.ret.list_push_back tmp else some tmp
            match ret with
            | none => .stop (.error .payload_assert)
            | some ret =>
              .stop (.ok ⟨ret, false,
                sp.length - (p.drop (s.boundary.length + 2)).length, calls⟩)
        else if s.boundary = next.take s.boundary.length then
          match close_part ecb s with
          | none => .stop (.error .payload_assert)
          | some (tmp, calls) =>
            match s.ret.list_push_back tmp with
            | none => .stop (.error .payload_assert)
            | some ret =>
              let in1 := p.drop (s.boundary.length + 2)
              .next { s with prototype := [], ret := ret, tmp := Entry, in_ := in1,
                             cbegin := in1, cend := in1, calls := calls,
                             state := .s_header_field }
        else .next { s with in_ := in_, cend := in_ }
  else .next { s with in_ := in_, cend := in_ }

/-- One pass through the `switch (state)` for the character `c = *in++`. -/
def step (rec_call : List Char → part → outcome) (ecb : event_cb) (sp : List Char)
    (s : frame) (c : Char) (in_ : List Char) : step_result :=
  match s.state with
  | .s_start => start_body ecb sp s c in_
  | .s_start_boundary => start_boundary_body ecb sp s c in_
  | .s_header_field => header_field_body ecb sp s c in_
  | .s_header_value => header_value_body rec_call ecb sp s c in_
  | .s_part_data => part_data_body ecb sp s c in_

/-- The loop `while (in != end) { auto c = *in++; switch (state) ... }` followed
by the trailing `return std::distance(sp, in);`.  The first argument bounds the
number of passes; every pass consumes at least one character, so the bound
`sp.length + 1` used by `decode_levels` is never reached (`decode_loop_fuel`). -/
def decode_loop (rec_call : List Char → part → outcome) (ecb : event_cb)
    (sp : List Char) : Nat → frame → outcome
  | 0, _ => .error .fuel
  | fuel + 1, s =>
    match s.in_ with
    | [] => .ok ⟨s.ret, false, sp.length, s.calls⟩
    | c :: in1 =>
      match step rec_call ecb sp s c in1 with
      | .next s1 => decode_loop rec_call ecb sp fuel s1
      | .stop o => o

/-- The frame at the top of the loop on first entry.  The iterators `cbegin`
and `cend` are uninitialised in the source and are written before they are
read. -/
def initial_frame (sp : List Char) (ret : part) : frame :=
  { in_ := sp, state := .s_start, boundary := [], key := [], value := [],
    cbegin := sp, cend := sp, prototype := [], tmp := Entry, ret := ret, calls := [] }

/-- The function `decode_recursive` indexed by the number of levels that may
still be entered, `max_recursive_depth - depth`: the test
`depth >= max_recursive_depth` is the case `0`, and the recursive call with
`depth + 1` is the call with one level less. -/
def decode_levels : Nat → event_cb → List Char → part → outcome
  | 0, _, _, ret => .ok ⟨ret, true, 0, []⟩
  | k + 1, ecb, sp, ret =>
    match sp with
    | [] => .ok ⟨ret, true, 0, []⟩
    | _ :: _ =>
      decode_loop (decode_levels k ecb) ecb sp (sp.length + 1) (initial_frame sp ret)

/-- The function `detail::decode_recursive(in, end, ret, err, depth, ecb)` on
the input `sp = [in, end)`. -/
def decode_recursive (sp : List Char) (ret : part) (depth : Nat) (ecb : event_cb) :
    outcome :=
  decode_levels (max_recursive_depth - depth) ecb sp ret

/-- The function `multipart::decode<part>(start, end, ecb)`. -/
def decode (sp : List Char) (ecb : event_cb) : Except fault part :=
  match decode_recursive sp Entry 0 ecb with
  | .error f => .error f
  | .ok r => if r.err then .ok Entry else .ok r.ret

/-- The function `detail::write_string(out, val)` applied to a sink `o` that
holds the bytes written so far and the running sum `ret`. -/
def write_string (o : List Char × Nat) (val : List Char) : List Char × Nat :=
  (o.1 ++ val, o.2 + val.length)

/-- The loop that writes the header lines `name: value\r\n`. -/
def write_prototype (o : List Char × Nat) : prototype_type → List Char × Nat
  | [] => o
  | p :: ps =>
    write_prototype
      (write_string (write_string (write_string (write_string o p.1) [':', ' ']) p.2) crlf) ps

mutual
/-- The function `detail::encode_recursive(out, e, w, depth)`: the bytes
appended to `out` and the returned count. -/
def encode_recursive : part → Bool → Nat → List Char × Nat
  | .content b pr c, w, depth =>
    let o := write_string ([], 0) (b ++ crlf)
    let o := write_prototype o pr
    let o := write_string o crlf
    let o := write_string o (c ++ crlf)
    let w := if depth = 0 then true else w
    if w then write_string o (b ++ dashes ++ crlf) else o
  | .list b pr l, w, depth =>
    let o := if b ≠ [] then write_string ([], 0) (b ++ crlf) else ([], 0)
    let o := write_prototype o pr
    let o := if b ≠ [] then write_string o crlf else o
    let r := encode_children l depth o [] false
    let o := if r.2.2 = false then write_string r.1 (r.2.1 ++ dashes ++ crlf) else r.1
    if w then write_string o (r.2.1 ++ dashes ++ crlf) else o
  | .undefined _ _, _, _ => ([], 0)
/-- The loop `for (const auto& p : e.list())` of the list case, carrying the
sink and the locals `boundary` and `writed`. -/
def encode_children : List part → Nat → List Char × Nat → List Char → Bool →
    (List Char × Nat) × List Char × Bool
  | [], _, o, boundary, writed => (o, boundary, writed)
  | p :: ps, depth, o, boundary, writed =>
    let st : (List Char × Nat) × List Char × Bool :=
      if boundary = [] then (o, p.boundary, writed)
      else if boundary ≠ p.boundary then
        (write_string o (boundary ++ dashes ++ crlf), p.boundary, true)
      else (o, boundary, writed)
    let r := encode_recursive p false (depth + 1)
    encode_children ps depth (st.1.1 ++ r.1, st.1.2 + r.2) st.2.1 st.2.2
end

/-- The function `multipart::encode(out, e)`. -/
def encode (e : part) : List Char × Nat :=
  encode_recursive e false 0

/-- The loop started with exactly the number of passes that the remaining
input can take. -/
def run (rec_call : List Char → part → outcome) (ecb : event_cb) (sp : List Char)
    (s : frame) : outcome :=
  decode_loop rec_call ecb sp (s.in_.length + 1) s

/-- A header as the encoder writes it: `name: value\r\n`. -/
def header_line (h : keyvalue_type) : List Char :=
  h.1 ++ ':' :: ' ' :: h.2 ++ crlf

/-- The header block of a part, one line per header. -/
def header_lines : prototype_type → List Char
  | [] => []
  | h :: hs => header_line h ++ header_lines hs

/-- The test made at the blank line: the last recorded header is a
`Content-Type` whose value matches the multipart pattern. -/
def nested_header (h : keyvalue_type) : Prop :=
  h.1 = content_type_name ∧ regex_match_multipart h.2 = true

instance (h : keyvalue_type) : Decidable (nested_header h) := by
  unfold nested_header; exact inferInstance

/-- A header name that the scanner reads back unchanged. -/
def well_formed_name (n : List Char) : Prop :=
  ∀ c ∈ n, c ≠ ':' ∧ c ≠ '\r' ∧ c ≠ '\n'

/-- A header value that the scanner reads back unchanged. -/
def well_formed_value (v : List Char) : Prop :=
  (∀ c ∈ v, c ≠ '\r') ∧ v.head? ≠ some ' '

/-- A header block that the scanner reads back unchanged and that does not
start a nested decode. -/
def well_formed_headers (hs : prototype_type) : Prop :=
  hs ≠ [] ∧ (∀ h ∈ hs, well_formed_name h.1 ∧ well_formed_value h.2) ∧
    ∀ h ∈ hs.getLast?, ¬ nested_header h

/-- The callback invocations made while a header block is scanned. -/
def header_calls (ecb : event_cb) : prototype_type → List callback_call → List callback_call
  | [], calls => calls
  | h :: hs, calls =>
    header_calls ecb hs
      (invoke ecb.header_value_ .header_value h.2
        (invoke ecb.header_field_ .header_field h.1 calls))

/-- The delimiter `\r\n` followed by `b` does not start inside the content
`c`: in `c ++ \r\n ++ b` it occurs at the offset `c.length` only. -/
def no_delimiter (b : List Char) : List Char → Bool
  | [] => true
  | x :: c => ((x :: c ++ crlf ++ b).take (b.length + 2) != crlf ++ b) && no_delimiter b c

/-- The part that one leaf of a flat message decodes to. -/
def leaf (b : List Char) (p : prototype_type × List Char) : part :=
  .content b p.1 p.2

/-- Leaf serialization: boundary line, header lines, blank line, content, CRLF. -/
def leaf_text (b : List Char) (p : prototype_type × List Char) : List Char :=
  b ++ crlf ++ header_lines p.1 ++ crlf ++ p.2 ++ crlf

/-- The leaf serializations of a sequence of parts, in order. -/
def parts_text (b : List Char) : List (prototype_type × List Char) → List Char
  | [] => []
  | p :: ps => leaf_text b p ++ parts_text b ps

/-- A flat multipart message: the parts one after the other, closed by the
final delimiter `b--`. -/
def flat_message (b : List Char) (ps : List (prototype_type × List Char)) : List Char :=
  parts_text b ps ++ b ++ dashes

/-- A boundary string as the decoder collects it from an opening line:
two dashes followed by a token free of CR. -/
def well_formed_boundary (b : List Char) : Prop :=
  b.take 2 = dashes ∧ ∀ c ∈ b.drop 2, c ≠ '\r'

/-- A part whose headers and content the decoder reads back unchanged. -/
def well_formed_part (b : List Char) (p : prototype_type × List Char) : Prop :=
  well_formed_headers p.1 ∧ no_delimiter b p.2 = true

/-- The tree that a flat message decodes to: the leaf itself for one part, a
list without boundary and headers for more. -/
def flat_tree (b : List Char) : List (prototype_type × List Char) → part
  | [p] => leaf b p
  | ps => .list [] [] (ps.map (leaf b))

/-- The callback invocations made for the parts of a flat message. -/
def parts_calls (ecb : event_cb) :
    List (prototype_type × List Char) → List callback_call → List callback_call
  | [], calls => calls
  | p :: ps, calls =>
    parts_calls ecb ps (invoke ecb.part_data_ .part_data p.2 (header_calls ecb p.1 calls))

/-- The bytes a content part contributes as a child of a list; nothing for the
other kinds. -/
def leaf_serialization : part → List Char
  | .content b hs c => leaf_text b (hs, c)
  | _ => []

/-- The leaf serializations of a list of parts, in order. -/
def serializations : List part → List Char
  | [] => []
  | e :: l => leaf_serialization e ++ serializations l

/-- What the list case writes before its children: the boundary line and the
blank line when the list has a boundary of its own, and its header lines. -/
def list_opening (b : List Char) (hs : prototype_type) : List Char :=
  (if b ≠ [] then b ++ crlf else []) ++ header_lines hs ++ (if b ≠ [] then crlf else [])

instance (n : List Char) : Decidable (well_formed_name n) := by
  unfold well_formed_name; exact inferInstance

instance (v : List Char) : Decidable (well_formed_value v) := by
  unfold well_formed_value; exact inferInstance

instance (hs : prototype_type) : Decidable (well_formed_headers hs) := by
  unfold well_formed_headers; exact inferInstance

instance (b : List Char) : Decidable (well_formed_boundary b) := by
  unfold well_formed_boundary; exact inferInstance

instance (b : List Char) (p : prototype_type × List Char) : Decidable (well_formed_part b p) := by
  unfold well_formed_part; exact inferInstance

/-- The two-part message of the scenario. -/
def two_part_input : List Char :=
  "--B\r\nK: V\r\n\r\nhello\r\n--B\r\nK2: V2\r\n\r\nworld\r\n--B--\r\n".toList

/-- The tree decoded from the two-part message. -/
def two_part_tree : part :=
  .list [] []
    [.content "--B".toList [("K".toList, "V".toList)] "hello".toList,
     .content "--B".toList [("K2".toList, "V2".toList)] "world".toList]

/-- The input that ends right after the separator delimiter line following a
complete first part. -/
def ends_after_separator : List Char :=
  "--B\r\nK: V\r\n\r\nhello\r\n--B\r\n".toList

/-- The callback invocations made while the opening of a wrapping part is
scanned: the boundary line and its single header. -/
def opening_calls (ecb : event_cb) (ob : List Char) (h : keyvalue_type) : List callback_call :=
  invoke ecb.header_value_ .header_value h.2
    (invoke ecb.header_field_ .header_field h.1 (invoke ecb.boundary_ .boundary ob []))

/-- The outer boundary line `--OUT` of the nested scenario. -/
def outer_boundary : List Char := "--OUT".toList

/-- The single outer header `Content-Type: multipart/mixed boundary=INNER`. -/
def outer_header : keyvalue_type :=
  (content_type_name, "multipart/mixed boundary=INNER".toList)

/-- The outer message of the nested scenario around an inner message: the
boundary line, the header line, a blank line, the inner message, CRLF and the
outer final delimiter. -/
def wrap_message (inner : List Char) : List Char :=
  outer_boundary ++ crlf ++ header_line outer_header ++ crlf ++
    (inner ++ crlf ++ outer_boundary ++ dashes)

/-- Two parts have the same kind and the same payload (content bytes, or
children in order). -/
def same_payload : part → part → Prop
  | .content _ _ c, .content _ _ c1 => c = c1
  | .list _ _ l, .list _ _ l1 => l = l1
  | .undefined _ _, .undefined _ _ => True
  | _, _ => False

/-- The header `Content-Type: multipart/mixed boundary=X` of the depth test. -/
def nest_header : keyvalue_type :=
  (content_type_name, "multipart/mixed boundary=X".toList)

/-- The messages of the depth test: a one-part message, wrapped `k` times in an
outer part whose only header is `nest_header`. -/
def nest : Nat → List Char
  | 0 => "--X\r\nK: V\r\n\r\nhello\r\n--X--".toList
  | k + 1 => "--X".toList ++ crlf ++ header_line nest_header ++ crlf ++
      (nest k ++ crlf ++ "--X".toList ++ dashes)

/-- The tree that `nest k` decodes to. -/
def nest_tree : Nat → part
  | 0 => .content "--X".toList [("K".toList, "V".toList)] "hello".toList
  | _ + 1 => .content "--X".toList [nest_header] "hello".toList

/-- What `ret` can hold while a level with boundary `b` is being scanned:
nothing yet, or a list without boundary and headers whose children all carry
the boundary `b`. -/
def collected (b : List Char) (ret : part) : Prop :=
  ret = Entry ∨ ∃ l, ret = .list [] [] l ∧ ∀ e ∈ l, e.boundary = b

/-- The frame is past the opening line of a level with boundary `b`. -/
def scanning (b : List Char) (s : frame) : Prop :=
  s.boundary = b ∧ s.state ≠ .s_start ∧ s.state ≠ .s_start_boundary ∧ collected b s.ret

/-- A nested message: an outer part `--OUT` whose body is a two-part inner
message with boundary `--INNER`, closed by `--OUT--`. -/
def nested_input : List Char :=
  ("--OUT\r\nContent-Type: multipart/mixed boundary=INNER\r\n\r\n" ++
    "--INNER\r\nK: V\r\n\r\nhello\r\n--INNER\r\nK2: V2\r\n\r\nworld\r\n--INNER--\r\n--OUT--\r\n").toList

/-- The tree decoded from the nested message. -/
def nested_tree : part :=
  .list "--OUT".toList [(content_type_name, "multipart/mixed boundary=INNER".toList)]
    [.content "--INNER".toList [("K".toList, "V".toList)] "hello".toList,
     .content "--INNER".toList [("K2".toList, "V2".toList)] "world".toList]

/-- The bytes that `encode` writes for the tree of the nested message: the
outer final delimiter `--OUT--` is absent. -/
def nested_reencoded : List Char :=
  ("--OUT\r\nContent-Type: multipart/mixed boundary=INNER\r\n\r\n" ++
    "--INNER\r\nK: V\r\n\r\nhello\r\n--INNER\r\nK2: V2\r\n\r\nworld\r\n--INNER--\r\n").toList

/-- The input that ends with the CR of the blank line closing a header block. -/
def ends_in_blank_line_cr : List Char :=
  "--B\r\nK: V\r\n\r".toList

/-- The input that ends immediately after the blank line closing a header
block. -/
def ends_after_blank_line : List Char :=
  "--B\r\nK: V\r\n\r\n".toList

/-- A nested message whose inner message has a single part with the header
`K: V`. -/
def single_inner_input : List Char :=
  ("--OUT\r\nContent-Type: multipart/mixed boundary=INNER\r\n\r\n" ++
    "--INNER\r\nK: V\r\n\r\nhello\r\n--INNER--\r\n--OUT--").toList

/-- The tree decoded from the nested message with a single inner part. -/
def single_inner_tree : part :=
  .content "--OUT".toList [(content_type_name, "multipart/mixed boundary=INNER".toList)]
    "hello".toList

mutual
/-- All headers of a tree, those of nested children included, in document
order. -/
def all_headers : part → List keyvalue_type
  | .content _ hs _ => hs
  | .undefined _ hs => hs
  | .list _ hs l => hs ++ all_headers_of l
/-- The headers of a list of parts. -/
def all_headers_of : List part → List keyvalue_type
  | [] => []
  | e :: l => all_headers e ++ all_headers_of l
end

/-- The events of one header block when both header hooks are set: for each
header, in order, a header-field event and a header-value event. -/
def header_events (field value : callback_func) (hs : prototype_type) : List callback_call :=
  hs.flatMap (fun h => [⟨.header_field, h.1, field h.1⟩, ⟨.header_value, h.2, value h.2⟩])

/-- The events of one part: its header events followed by one leaf-content
event carrying the content. -/
def part_events (field value data : callback_func) (p : prototype_type × List Char) :
    List callback_call :=
  header_events field value p.1 ++ [⟨.part_data, p.2, data p.2⟩]

/-- The events of a flat message when all four hooks are set: one boundary
event for the opening line, then the events of each part in document order. -/
def message_events (boundary field value data : callback_func) (b : List Char)
    (ps : List (prototype_type × List Char)) : List callback_call :=
  ⟨.boundary, b, boundary b⟩ :: ps.flatMap (part_events field value data)

/-- What follows the opening line when a message starts with complete parts:
each part's header block, blank line, content, CRLF and a separator delimiter
line. -/
def complete_parts (b : List Char) : List (prototype_type × List Char) → List Char
  | [] => []
  | p :: ps => header_lines p.1 ++ crlf ++ p.2 ++ crlf ++ b ++ crlf ++ complete_parts b ps

/-- A value with all its leading spaces removed. -/
def strip_spaces (w : List Char) : List Char :=
  w.dropWhile (fun c => c == ' ')

/-- A header line as it stands in the input: the name, a colon, the bytes `w`
up to the CR, and CRLF. -/
def raw_header_line (r : List Char × List Char) : List Char :=
  r.1 ++ ':' :: r.2 ++ crlf

/-- A header block of raw header lines. -/
def raw_header_lines : List (List Char × List Char) → List Char
  | [] => []
  | r :: rs => raw_header_line r ++ raw_header_lines rs

/-- The pairs recorded from raw header lines. -/
def recorded_headers (rs : List (List Char × List Char)) : prototype_type :=
  rs.map (fun r => (r.1, strip_spaces r.2))

/-- Raw header lines that the scanner accepts without starting a nested
decode: at least one line, names free of colon, CR and LF, values free of
CR. -/
def well_formed_raw_headers (rs : List (List Char × List Char)) : Prop :=
  rs ≠ [] ∧ (∀ r ∈ rs, well_formed_name r.1 ∧ ∀ c ∈ r.2, c ≠ '\r') ∧
    ∀ r ∈ rs.getLast?, ¬ nested_header (r.1, strip_spaces r.2)

instance (rs : List (List Char × List Char)) : Decidable (well_formed_raw_headers rs) := by
  unfold well_formed_raw_headers; exact inferInstance

/-- The frame of a run over an input extended by the tail `t`: every iterator
is a suffix of the input, so each of them gains the tail. -/
def with_tail (t : List Char) (s : frame) : frame :=
  { s with in_ := s.in_ ++ t, cbegin := s.cbegin ++ t, cend := s.cend ++ t }

/-- The result of a pass on an input extended by the tail `t`. -/
def lift_tail (t : List Char) : step_result → step_result
  | .next s => .next (with_tail t s)
  | .stop o => .stop o

/-- Number of characters a pass may look at from the current position: four
in the opening line and in the headers, and a CRLF, the boundary and two more
characters in the part data. -/
def needed (s : frame) : Nat :=
  match s.state with
  | .s_start => 4
  | .s_start_boundary => 4
  | _ => s.boundary.length + 4

/-- The pass for `c` with `in_` after it is the one that makes the recursive call. -/
def makes_nested_call (s : frame) (c : Char) (in_ : List Char) : Prop :=
  s.state = .s_header_value ∧ c = '\r' ∧ (∃ in3, in_ = '\n' :: '\r' :: '\n' :: in3) ∧
    s.key = content_type_name ∧ regex_match_multipart (slice s.cbegin s.cend) = true

/-- No position inside the data `c` starts a CRLF followed by the boundary `b`,
where `rest` is what follows `c` in the input: neither a separator nor a final
delimiter is matched while `c` is scanned.  Nothing is asked of the positions
inside `rest`. -/
def no_delimiter_within (b : List Char) : List Char → List Char → Bool
  | [], _ => true
  | x :: c, rest =>
    ((x :: c ++ rest).take (b.length + 2) != crlf ++ b) && no_delimiter_within b c rest

/-- The frame at the top of the loop after `k` passes from the frame `s`, when
the loop is still running then. -/
def frame_after (rec_call : List Char → part → outcome) (ecb : event_cb)
    (sp : List Char) : Nat → frame → Option frame
  | 0, s => some s
  | k + 1, s =>
    match s.in_ with
    | [] => none
    | c :: in1 =>
      match step rec_call ecb sp s c in1 with
      | .next s1 => frame_after rec_call ecb sp k s1
      | .stop _ => none

/-- The call `decode_recursive(sp, end, ret, err, depth, ecb)` comes to a short
boundary site: after some passes its loop is in the part data at a CR LF pair
followed by fewer than `boundary.length() + 2` remaining bytes (`here`), or it
is at the blank line that makes the recursive call and the call made there
comes to a short boundary site (`nested`). -/
inductive meets_short_site (ecb : event_cb) : Nat → List Char → part → Prop where
  | here (depth : Nat) (sp : List Char) (ret : part) (k : Nat) (s : frame) (tail : List Char)
      (hk : frame_after (fun i t => decode_recursive i t (depth + 1) ecb) ecb sp k
        (initial_frame sp ret) = some s)
      (hs : s.state = .s_part_data) (hin : s.in_ = '\r' :: '\n' :: tail)
      (hshort : tail.length < s.boundary.length + 2) : meets_short_site ecb depth sp ret
  | nested (depth : Nat) (sp : List Char) (ret : part) (k : Nat) (s : frame) (in3 : List Char)
      (hk : frame_after (fun i t => decode_recursive i t (depth + 1) ecb) ecb sp k
        (initial_frame sp ret) = some s)
      (hin : s.in_ = '\r' :: '\n' :: '\r' :: '\n' :: in3)
      (hcall : makes_nested_call s '\r' ('\n' :: '\r' :: '\n' :: in3))
      (hinner : meets_short_site ecb (depth + 1) in3 s.tmp) : meets_short_site ecb depth sp ret

/-- The nested message cut inside the inner final delimiter: the inner level
with boundary `--I` comes to a CRLF followed by the three bytes `--I`. -/
def nested_short_site : List Char :=
  ("--OUT\r\nContent-Type: multipart/mixed boundary=I\r\n\r\n" ++
    "--I\r\nK: V\r\n\r\nab\r\n--I").toList

/-! ## Theorems -/

set_option linter.unusedTactic false
set_option linter.unreachableTactic false

theorem start_boundary_body_length {ecb : event_cb} {sp : List Char} {s s1 : frame} {c : Char}
    {in1 : List Char} (h : start_boundary_body ecb sp s c in1 = .next s1) :
    s1.in_.length ≤ in1.length := by
  unfold start_boundary_body at h
  split at h
  · split at h
    · simp [fail] at h
    · split at h <;> (injection h with h; subst h; simp)
  · injection h with h; subst h; simp

theorem step_length {rec_call : List Char → part → outcome} {ecb : event_cb} {sp : List Char}
    {s s1 : frame} {c : Char} {in1 : List Char}
    (h : step rec_call ecb sp s c in1 = .next s1) : s1.in_.length ≤ in1.length := by
  unfold step at h
  split at h
  · unfold start_body at h
    split at h
    · simp [fail] at h
    · split at h
      · simp [fail] at h
      · split at h
        · simp [fail] at h
        · have := start_boundary_body_length h
          simp at this ⊢; omega
  · exact start_boundary_body_length h
  · unfold header_field_body at h
    split at h
    · simp [fail] at h
    · split at h <;> (injection h with h; subst h; simp)
  · simp only [header_value_body] at h
    repeat' split at h
    all_goals first
      | (simp [fail] at h; done)
      | (injection h with h; subst h; simp; try omega)
  · simp only [part_data_body] at h
    repeat' split at h
    all_goals first
      | (simp [fail] at h; done)
      | (injection h with h; subst h; simp; try omega)

theorem decode_loop_succ (rec_call : List Char → part → outcome) (ecb : event_cb)
    (sp : List Char) (fuel : Nat) (s : frame) :
    decode_loop rec_call ecb sp (fuel + 1) s =
      match s.in_ with
      | [] => .ok ⟨s.ret, false, sp.length, s.calls⟩
      | c :: in1 =>
        match step rec_call ecb sp s c in1 with
        | .next s1 => decode_loop rec_call ecb sp fuel s1
        | .stop o => o := rfl

theorem decode_loop_fuel_irrelevant (rec_call : List Char → part → outcome) (ecb : event_cb)
    (sp : List Char) : ∀ (fuel fuel1 : Nat) (s : frame), s.in_.length < fuel →
      s.in_.length < fuel1 →
      decode_loop rec_call ecb sp fuel s = decode_loop rec_call ecb sp fuel1 s := by
  intro fuel
  induction fuel with
  | zero => intro _ s h; omega
  | succ n ih =>
    intro fuel1 s h h1
    cases fuel1 with
    | zero => omega
    | succ m =>
      rw [decode_loop_succ, decode_loop_succ]
      cases hin : s.in_ with
      | nil => rfl
      | cons c in1 =>
        rw [hin] at h h1
        simp only [List.length_cons] at h h1 ⊢
        cases hst : step rec_call ecb sp s c in1 with
        | stop o => rfl
        | next s1 =>
          have hl := step_length hst
          exact ih m s1 (by omega) (by omega)

theorem decode_loop_fuel (rec_call : List Char → part → outcome) (ecb : event_cb)
    (sp : List Char) (fuel : Nat) (s : frame) (h : s.in_.length < fuel) :
    decode_loop rec_call ecb sp fuel s = run rec_call ecb sp s :=
  decode_loop_fuel_irrelevant rec_call ecb sp fuel _ s h (Nat.lt_succ_self _)

theorem run_nil (rec_call : List Char → part → outcome) (ecb : event_cb) (sp : List Char)
    (s : frame) (h : s.in_ = []) :
    run rec_call ecb sp s = .ok ⟨s.ret, false, sp.length, s.calls⟩ := by
  simp [run, decode_loop, h]

theorem run_cons (rec_call : List Char → part → outcome) (ecb : event_cb) (sp : List Char)
    (s : frame) (c : Char) (in1 : List Char) (h : s.in_ = c :: in1) :
    run rec_call ecb sp s =
      match step rec_call ecb sp s c in1 with
      | .next s1 => run rec_call ecb sp s1
      | .stop o => o := by
  unfold run
  rw [decode_loop_succ]
  simp only [h, List.length_cons]
  cases hst : step rec_call ecb sp s c in1 with
  | stop o => rfl
  | next s1 =>
    have hl := step_length hst
    simp only
    exact decode_loop_fuel rec_call ecb sp _ s1 (by omega)

theorem scan_boundary (rec_call : List Char → part → outcome) (ecb : event_cb) (sp : List Char)
    (rest key value cb ce : List Char) (proto : prototype_type) (tmp ret : part)
    (calls : List callback_call) :
    ∀ (t : List Char), (∀ c ∈ t, c ≠ '\r') → ∀ (b : List Char),
      run rec_call ecb sp ⟨t ++ '\r' :: '\n' :: rest, .s_start_boundary, b, key, value, cb, ce,
        proto, tmp, ret, calls⟩ =
      run rec_call ecb sp ⟨rest, .s_header_field, b ++ t, key, value, rest, rest,
        proto, tmp, ret, invoke ecb.boundary_ .boundary (b ++ t) calls⟩ := by
  intro t
  induction t with
  | nil =>
    intro _ b
    rw [run_cons _ _ _ _ '\r' ('\n' :: rest) rfl]
    simp [step, start_boundary_body]
  | cons x t ih =>
    intro h b
    have hx : x ≠ '\r' := h x (by simp)
    rw [run_cons _ _ _ _ x (t ++ '\r' :: '\n' :: rest) rfl]
    simp only [step, start_boundary_body, hx, if_false]
    rw [ih (fun c hc => h c (by simp [hc])) (b ++ [x])]
    simp

theorem slice_append (a b : List Char) : slice (a ++ b) b = a := by
  simp [slice]

theorem scan_header_name (rec_call : List Char → part → outcome) (ecb : event_cb)
    (sp : List Char) (rest b key value : List Char) (proto : prototype_type) (tmp ret : part)
    (calls : List callback_call) :
    ∀ (name : List Char), (∀ c ∈ name, c ≠ ':' ∧ c ≠ '\r' ∧ c ≠ '\n') → ∀ (n0 : List Char),
      run rec_call ecb sp ⟨name ++ ':' :: rest, .s_header_field, b, key, value,
        n0 ++ name ++ ':' :: rest, name ++ ':' :: rest, proto, tmp, ret, calls⟩ =
      run rec_call ecb sp ⟨rest, .s_header_value, b, n0 ++ name, value, rest, rest,
        proto, tmp, ret, invoke ecb.header_field_ .header_field (n0 ++ name) calls⟩ := by
  intro name
  induction name with
  | nil =>
    intro _ n0
    rw [run_cons _ _ _ _ ':' rest rfl]
    simp [step, header_field_body, slice_append]
  | cons x name ih =>
    intro h n0
    obtain ⟨h1, h2, h3⟩ := h x (by simp)
    rw [run_cons _ _ _ _ x (name ++ ':' :: rest) rfl]
    simp only [step, header_field_body, h1, h2, h3, or_self, if_false]
    have := ih (fun c hc => h c (by simp [hc])) (n0 ++ [x])
    simp only [List.append_assoc, List.singleton_append] at this
    simpa using this

theorem scan_value_tail (rec_call : List Char → part → outcome) (ecb : event_cb)
    (sp : List Char) (tl b key value : List Char) (proto : prototype_type) (tmp ret : part)
    (calls : List callback_call) :
    ∀ (v : List Char), (∀ c ∈ v, c ≠ '\r') → ∀ (n0 : List Char), n0 ≠ [] →
      run rec_call ecb sp ⟨v ++ '\r' :: tl, .s_header_value, b, key, value,
        n0 ++ v ++ '\r' :: tl, v ++ '\r' :: tl, proto, tmp, ret, calls⟩ =
      run rec_call ecb sp ⟨'\r' :: tl, .s_header_value, b, key, value,
        n0 ++ v ++ '\r' :: tl, '\r' :: tl, proto, tmp, ret, calls⟩ := by
  intro v
  induction v with
  | nil => intro _ n0 _; rfl
  | cons x v ih =>
    intro h n0 hn0
    have hx : x ≠ '\r' := h x (by simp)
    have hlen : 0 < n0.length := List.length_pos.mpr hn0
    rw [run_cons _ _ _ _ x (v ++ '\r' :: tl) rfl]
    have hne : ¬ ((n0 ++ x :: v ++ '\r' :: tl).length = (v ++ '\r' :: tl).length + 1) := by
      intro hc
      simp only [List.length_append, List.length_cons] at hc
      omega
    simp only [step, header_value_body, hne, false_and, if_false, hx, ne_eq, not_false_eq_true,
      if_true]
    have := ih (fun c hc => h c (by simp [hc])) (n0 ++ [x]) (by simp)
    simp only [List.append_assoc, List.singleton_append] at this
    simpa using this

theorem scan_value (rec_call : List Char → part → outcome) (ecb : event_cb)
    (sp : List Char) (tl b key value : List Char) (proto : prototype_type) (tmp ret : part)
    (calls : List callback_call) (v : List Char) (hv : ∀ c ∈ v, c ≠ '\r')
    (hsp : v.head? ≠ some ' ') :
    run rec_call ecb sp ⟨' ' :: v ++ '\r' :: tl, .s_header_value, b, key, value,
        ' ' :: v ++ '\r' :: tl, ' ' :: v ++ '\r' :: tl, proto, tmp, ret, calls⟩ =
      run rec_call ecb sp ⟨'\r' :: tl, .s_header_value, b, key, value,
        v ++ '\r' :: tl, '\r' :: tl, proto, tmp, ret, calls⟩ := by
  rw [run_cons _ _ _ _ ' ' (v ++ '\r' :: tl) rfl]
  simp only [step, header_value_body, List.length_cons, List.cons_append, and_self, if_true]
  cases v with
  | nil => rfl
  | cons x v =>
    have hx : x ≠ '\r' := hv x (by simp)
    have hx2 : x ≠ ' ' := by simpa using hsp
    rw [run_cons _ _ _ _ x (v ++ '\r' :: tl) rfl]
    simp only [step, header_value_body, hx2, and_false, if_false, hx, ne_eq, not_false_eq_true,
      if_true]
    have := scan_value_tail rec_call ecb sp tl b key value proto tmp ret calls v
      (fun c hc => hv c (by simp [hc])) [x] (by simp)
    simpa using this

theorem value_end_more (rec_call : List Char → part → outcome) (ecb : event_cb)
    (sp : List Char) (rest b key value n0 : List Char) (x : Char) (hx : x ≠ '\r')
    (proto : prototype_type) (tmp ret : part) (calls : List callback_call) :
    run rec_call ecb sp ⟨'\r' :: '\n' :: x :: rest, .s_header_value, b, key, value,
        n0 ++ '\r' :: '\n' :: x :: rest, '\r' :: '\n' :: x :: rest, proto, tmp, ret, calls⟩ =
      run rec_call ecb sp ⟨x :: rest, .s_header_field, b, key, n0, x :: rest, x :: rest,
        proto ++ [(key, n0)], tmp, ret,
        invoke ecb.header_value_ .header_value n0 calls⟩ := by
  rw [run_cons _ _ _ _ '\r' ('\n' :: x :: rest) rfl]
  simp [step, header_value_body, hx, slice_append]

theorem value_end_data (rec_call : List Char → part → outcome) (ecb : event_cb)
    (sp : List Char) (rest b key value n0 : List Char)
    (hflat : ¬ (key = content_type_name ∧ regex_match_multipart n0 = true))
    (proto : prototype_type) (tmp ret : part) (calls : List callback_call) :
    run rec_call ecb sp ⟨'\r' :: '\n' :: '\r' :: '\n' :: rest, .s_header_value, b, key, value,
        n0 ++ '\r' :: '\n' :: '\r' :: '\n' :: rest, '\r' :: '\n' :: '\r' :: '\n' :: rest,
        proto, tmp, ret, calls⟩ =
      run rec_call ecb sp ⟨rest, .s_part_data, b, key, n0, rest, rest,
        proto ++ [(key, n0)], tmp, ret,
        invoke ecb.header_value_ .header_value n0 calls⟩ := by
  rw [run_cons _ _ _ _ '\r' ('\n' :: '\r' :: '\n' :: rest) rfl]
  simp only [step, header_value_body, slice_append]
  simp [hflat]

theorem value_end_nested (rec_call : List Char → part → outcome) (ecb : event_cb)
    (sp : List Char) (rest b key value n0 : List Char)
    (hkey : key = content_type_name) (hre : regex_match_multipart n0 = true)
    (proto : prototype_type) (tmp ret : part) (calls : List callback_call) :
    run rec_call ecb sp ⟨'\r' :: '\n' :: '\r' :: '\n' :: rest, .s_header_value, b, key, value,
        n0 ++ '\r' :: '\n' :: '\r' :: '\n' :: rest, '\r' :: '\n' :: '\r' :: '\n' :: rest,
        proto, tmp, ret, calls⟩ =
      match rec_call rest tmp with
      | .error f => .error f
      | .ok r =>
        if r.err then
          .ok ⟨ret, true, sp.length - rest.length,
            invoke ecb.header_value_ .header_value n0 calls ++ r.calls⟩
        else
          run rec_call ecb sp ⟨rest.drop r.pos, .s_part_data, b, key, n0, rest.drop r.pos,
            rest.drop r.pos, proto ++ [(key, n0)], r.ret, ret,
            invoke ecb.header_value_ .header_value n0 calls ++ r.calls⟩ := by
  rw [run_cons _ _ _ _ '\r' ('\n' :: '\r' :: '\n' :: rest) rfl]
  cases hrec : rec_call rest tmp with
  | error f => simp [step, header_value_body, slice_append, hkey, hre, hrec]
  | ok r =>
    by_cases herr : r.err = true
    · simp [step, header_value_body, slice_append, hkey, hre, hrec, herr]
    · simp [step, header_value_body, slice_append, hkey, hre, hrec, herr]

theorem header_line_head (h : keyvalue_type) (hn : well_formed_name h.1) (rest : List Char) :
    ∃ x tl, header_line h ++ rest = x :: tl ∧ x ≠ '\r' := by
  unfold header_line
  cases hh : h.1 with
  | nil => exact ⟨':', _, by simp; rfl, by decide⟩
  | cons x n =>
    refine ⟨x, _, by simp; rfl, ?_⟩
    exact (hn x (by simp [hh])).2.1

theorem scan_header_line (rec_call : List Char → part → outcome) (ecb : event_cb)
    (sp : List Char) (tl b key value : List Char) (proto : prototype_type) (tmp ret : part)
    (calls : List callback_call) (h : keyvalue_type) (hn : well_formed_name h.1)
    (hv : well_formed_value h.2) :
    run rec_call ecb sp ⟨header_line h ++ tl, .s_header_field, b, key, value,
        header_line h ++ tl, header_line h ++ tl, proto, tmp, ret, calls⟩ =
      run rec_call ecb sp ⟨'\r' :: '\n' :: tl, .s_header_value, b, h.1, value,
        h.2 ++ '\r' :: '\n' :: tl, '\r' :: '\n' :: tl, proto, tmp, ret,
        invoke ecb.header_field_ .header_field h.1 calls⟩ := by
  have h1 := scan_header_name rec_call ecb sp (' ' :: h.2 ++ '\r' :: '\n' :: tl) b key value
    proto tmp ret calls h.1 hn []
  have h2 := scan_value rec_call ecb sp ('\n' :: tl) b h.1 value proto tmp ret
    (invoke ecb.header_field_ .header_field h.1 calls) h.2 hv.1 hv.2
  simp only [header_line, crlf, List.append_assoc, List.cons_append, List.nil_append]
    at h1 h2 ⊢
  rw [h1, h2]

theorem scan_headers (rec_call : List Char → part → outcome) (ecb : event_cb)
    (sp : List Char) (rest b : List Char) (tmp ret : part) :
    ∀ (hs : prototype_type), well_formed_headers hs →
      ∀ (key value : List Char) (proto : prototype_type) (calls : List callback_call),
      ∃ key1 value1,
      run rec_call ecb sp ⟨header_lines hs ++ crlf ++ rest, .s_header_field, b, key, value,
        header_lines hs ++ crlf ++ rest, header_lines hs ++ crlf ++ rest, proto, tmp, ret,
        calls⟩ =
      run rec_call ecb sp ⟨rest, .s_part_data, b, key1, value1, rest, rest,
        proto ++ hs, tmp, ret, header_calls ecb hs calls⟩ := by
  intro hs
  induction hs with
  | nil => intro h; exact absurd rfl h.1
  | cons h hs ih =>
    intro hwf key value proto calls
    obtain ⟨_, hall, hlast⟩ := hwf
    obtain ⟨hn, hv⟩ := hall h (by simp)
    cases hs with
    | nil =>
      refine ⟨h.1, h.2, ?_⟩
      have hflat : ¬ nested_header h := hlast h (by simp)
      have h1 := scan_header_line rec_call ecb sp ('\r' :: '\n' :: rest) b key value proto tmp
        ret calls h hn hv
      have h2 := value_end_data rec_call ecb sp rest b h.1 value h.2 hflat proto tmp ret
        (invoke ecb.header_field_ .header_field h.1 calls)
      simp only [header_lines, crlf, List.append_assoc, List.cons_append, List.nil_append,
        List.append_nil, header_calls] at h1 ⊢
      rw [h1, h2]
    | cons h' hs' =>
      have hwf' : well_formed_headers (h' :: hs') :=
        ⟨by simp, fun x hx => hall x (by simp [hx]), fun x hx => hlast x (by simpa using hx)⟩
      obtain ⟨x, tl, hx, hxr⟩ := header_line_head h' (hall h' (by simp)).1
        (header_lines hs' ++ crlf ++ rest)
      have h1 := scan_header_line rec_call ecb sp (header_lines (h' :: hs') ++ crlf ++ rest) b
        key value proto tmp ret calls h hn hv
      have hx' : header_lines (h' :: hs') ++ crlf ++ rest = x :: tl := by
        simpa [header_lines] using hx
      obtain ⟨key1, value1, h3⟩ := ih hwf' h.1 h.2 (proto ++ [h])
        (invoke ecb.header_value_ .header_value h.2
          (invoke ecb.header_field_ .header_field h.1 calls))
      refine ⟨key1, value1, ?_⟩
      have h2 := value_end_more rec_call ecb sp tl b h.1 value h.2 x hxr proto tmp ret
        (invoke ecb.header_field_ .header_field h.1 calls)
      rw [← hx'] at h2
      have e1 : header_lines (h :: h' :: hs') ++ crlf ++ rest =
          header_line h ++ (header_lines (h' :: hs') ++ crlf ++ rest) := by
        simp [header_lines]
      rw [e1, h1, h2, h3]
      simp [header_calls]

theorem window_miss (b c tl : List Char) (h : (c ++ crlf ++ b).take b.length ≠ b) :
    ¬ ((c ++ '\r' :: '\n' :: (b ++ tl)).length < b.length + 2) ∧
    ¬ (b ++ dashes = (c ++ '\r' :: '\n' :: (b ++ tl)).take (b.length + 2)) ∧
    ¬ (b = ((c ++ '\r' :: '\n' :: (b ++ tl)).take (b.length + 2)).take b.length) := by
  have e : (c ++ '\r' :: '\n' :: (b ++ tl)).take b.length = (c ++ crlf ++ b).take b.length := by
    have : c ++ '\r' :: '\n' :: (b ++ tl) = (c ++ crlf ++ b) ++ tl := by simp [crlf]
    rw [this, List.take_append_of_le_length (by simp; omega)]
  refine ⟨by simp; omega, ?_, ?_⟩
  · intro hc
    apply h
    have := congrArg (List.take b.length) hc
    rw [List.take_take] at this
    simp at this
    rw [← e]; exact this.symm
  · intro hc
    apply h
    rw [List.take_take] at hc
    simp at hc
    rw [← e]; exact hc.symm

theorem scan_part_data (rec_call : List Char → part → outcome) (ecb : event_cb)
    (sp : List Char) (tl b key value : List Char) (proto : prototype_type) (tmp ret : part)
    (calls : List callback_call) :
    ∀ (c : List Char), no_delimiter b c = true → ∀ (n0 : List Char),
      run rec_call ecb sp ⟨c ++ '\r' :: '\n' :: (b ++ tl), .s_part_data, b, key, value,
        n0 ++ (c ++ '\r' :: '\n' :: (b ++ tl)), c ++ '\r' :: '\n' :: (b ++ tl), proto, tmp, ret,
        calls⟩ =
      run rec_call ecb sp ⟨'\r' :: '\n' :: (b ++ tl), .s_part_data, b, key, value,
        n0 ++ (c ++ '\r' :: '\n' :: (b ++ tl)), '\r' :: '\n' :: (b ++ tl), proto, tmp, ret,
        calls⟩ := by
  intro c
  induction c with
  | nil => intro _ n0; rfl
  | cons x c ih =>
    intro h n0
    simp only [no_delimiter, Bool.and_eq_true, bne_iff_ne, ne_eq] at h
    obtain ⟨hx, hc⟩ := h
    have ih' := ih hc (n0 ++ [x])
    simp only [List.append_assoc, List.cons_append, List.nil_append] at ih' ⊢
    rw [run_cons _ _ _ _ x (c ++ '\r' :: '\n' :: (b ++ tl)) rfl, ← ih']
    by_cases hr : x = '\r'
    · subst hr
      cases c with
      | nil => simp [step, part_data_body]
      | cons y c =>
        by_cases hy : y = '\n'
        · subst hy
          have hw : (c ++ crlf ++ b).take b.length ≠ b := by
            intro hc2
            apply hx
            simp [crlf, List.take_succ_cons] at hc2 ⊢
            exact hc2
          obtain ⟨w1, w2, w3⟩ := window_miss b c tl hw
          simp only [step, part_data_body, List.cons_append, if_true, ne_eq, not_true_eq_false,
            if_false, w1, w2, w3]
        · simp [step, part_data_body, hy]
    · simp [step, part_data_body, hr]

theorem close_part_leaf (ecb : event_cb) (in_ b key value n0 ce tb : List Char) (st : pstate)
    (proto tp : prototype_type) (ret : part) (calls : List callback_call) (hp : proto ≠ []) :
    close_part ecb ⟨in_, st, b, key, value, n0 ++ ce, ce, proto, .undefined tb tp, ret, calls⟩ =
      some (.content b proto n0, invoke ecb.part_data_ .part_data n0 calls) := by
  simp [close_part, part.type, part.assign_content, slice_append, part.set_boundary,
    part.set_prototype, hp]

theorem close_part_filled (ecb : event_cb) (in_ b key value cb ce : List Char) (st : pstate)
    (proto : prototype_type) (tmp ret : part) (calls : List callback_call) (hp : proto ≠ [])
    (ht : tmp.type ≠ data_type.undefined_t) :
    close_part ecb ⟨in_, st, b, key, value, cb, ce, proto, tmp, ret, calls⟩ =
      some ((tmp.set_boundary b).set_prototype proto, calls) := by
  simp [close_part, ht, hp]

theorem final_delimiter (rec_call : List Char → part → outcome) (ecb : event_cb)
    (sp : List Char) (rest b key value cb ce : List Char) (proto : prototype_type)
    (tmp ret : part) (calls : List callback_call) (t : part) (cl : List callback_call)
    (hclose : close_part ecb ⟨'\r' :: '\n' :: (b ++ '-' :: '-' :: rest), .s_part_data, b, key,
      value, cb, ce, proto, tmp, ret, calls⟩ = some (t, cl)) :
    run rec_call ecb sp ⟨'\r' :: '\n' :: (b ++ '-' :: '-' :: rest), .s_part_data, b, key, value,
        cb, ce, proto, tmp, ret, calls⟩ =
      match (if ret.type = data_type.list_t then ret.list_push_back t else some t) with
      | none => .error .payload_assert
      | some r => .ok ⟨r, false, sp.length - rest.length, cl⟩ := by
  rw [run_cons _ _ _ _ '\r' ('\n' :: (b ++ '-' :: '-' :: rest)) rfl]
  have e1 : (b ++ '-' :: '-' :: rest).take (b.length + 2) = b ++ dashes := by
    have : b ++ '-' :: '-' :: rest = (b ++ dashes) ++ rest := by simp [dashes]
    rw [this, List.take_append_of_le_length (by simp [dashes])]
    simp [dashes]
  have e2 : (b ++ '-' :: '-' :: rest).drop (b.length + 2) = rest := by
    have : b ++ '-' :: '-' :: rest = (b ++ dashes) ++ rest := by simp [dashes]
    rw [this, List.drop_append_of_le_length (by simp [dashes])]
    simp [dashes]
  have e3 : ¬ ((b ++ '-' :: '-' :: rest).length < b.length + 2) := by simp
  simp only [step, part_data_body, if_true, ne_eq, not_true_eq_false, if_false, e1, e2, e3,
    hclose]
  generalize (if ret.type = data_type.list_t then ret.list_push_back t else some t) = o
  cases o <;> rfl

theorem separator_delimiter (rec_call : List Char → part → outcome) (ecb : event_cb)
    (sp : List Char) (rest b key value cb ce : List Char) (proto : prototype_type)
    (tmp ret : part) (calls : List callback_call) (t : part) (cl : List callback_call)
    (hclose : close_part ecb ⟨'\r' :: '\n' :: (b ++ '\r' :: '\n' :: rest), .s_part_data, b, key,
      value, cb, ce, proto, tmp, ret, calls⟩ = some (t, cl)) :
    run rec_call ecb sp ⟨'\r' :: '\n' :: (b ++ '\r' :: '\n' :: rest), .s_part_data, b, key,
        value, cb, ce, proto, tmp, ret, calls⟩ =
      match ret.list_push_back t with
      | none => .error .payload_assert
      | some r =>
        run rec_call ecb sp ⟨rest, .s_header_field, b, key, value, rest, rest, [], Entry, r,
          cl⟩ := by
  rw [run_cons _ _ _ _ '\r' ('\n' :: (b ++ '\r' :: '\n' :: rest)) rfl]
  have e1 : (b ++ '\r' :: '\n' :: rest).take (b.length + 2) = b ++ crlf := by
    have : b ++ '\r' :: '\n' :: rest = (b ++ crlf) ++ rest := by simp [crlf]
    rw [this, List.take_append_of_le_length (by simp [crlf])]
    simp [crlf]
  have e2 : (b ++ '\r' :: '\n' :: rest).drop (b.length + 2) = rest := by
    have : b ++ '\r' :: '\n' :: rest = (b ++ crlf) ++ rest := by simp [crlf]
    rw [this, List.drop_append_of_le_length (by simp [crlf])]
    simp [crlf]
  have e3 : ¬ ((b ++ '\r' :: '\n' :: rest).length < b.length + 2) := by simp
  have e4 : ¬ (b ++ dashes = b ++ crlf) := by simp [dashes, crlf]
  have e5 : (b ++ crlf).take b.length = b := by simp
  simp only [step, part_data_body, if_true, ne_eq, not_true_eq_false, if_false, e1, e2, e3, e4,
    e5, hclose]
  generalize ret.list_push_back t = o
  cases o <;> rfl

theorem scan_part (rec_call : List Char → part → outcome) (ecb : event_cb)
    (sp : List Char) (tl b : List Char) (tmp ret : part) (hs : prototype_type) (c : List Char)
    (hwf : well_formed_part b (hs, c)) (key value : List Char) (proto : prototype_type)
    (calls : List callback_call) :
    ∃ key1 value1,
      run rec_call ecb sp ⟨header_lines hs ++ crlf ++ c ++ crlf ++ b ++ tl, .s_header_field, b,
        key, value, header_lines hs ++ crlf ++ c ++ crlf ++ b ++ tl,
        header_lines hs ++ crlf ++ c ++ crlf ++ b ++ tl, proto, tmp, ret, calls⟩ =
      run rec_call ecb sp ⟨'\r' :: '\n' :: (b ++ tl), .s_part_data, b, key1, value1,
        c ++ '\r' :: '\n' :: (b ++ tl), '\r' :: '\n' :: (b ++ tl), proto ++ hs, tmp, ret,
        header_calls ecb hs calls⟩ := by
  obtain ⟨key1, value1, h1⟩ := scan_headers rec_call ecb sp (c ++ crlf ++ b ++ tl) b tmp ret hs
    hwf.1 key value proto calls
  refine ⟨key1, value1, ?_⟩
  have h2 := scan_part_data rec_call ecb sp tl b key1 value1 (proto ++ hs) tmp ret
    (header_calls ecb hs calls) c hwf.2 []
  simp only [crlf, List.append_assoc, List.cons_append, List.nil_append] at h1 h2 ⊢
  rw [h1, h2]

theorem part_then_final (rec_call : List Char → part → outcome) (ecb : event_cb)
    (sp : List Char) (rest b tb : List Char) (tp : prototype_type) (ret : part)
    (p : prototype_type × List Char)
    (hwf : well_formed_part b p) (key value : List Char) (calls : List callback_call) :
    run rec_call ecb sp ⟨header_lines p.1 ++ crlf ++ p.2 ++ crlf ++ b ++ dashes ++ rest,
        .s_header_field, b, key, value,
        header_lines p.1 ++ crlf ++ p.2 ++ crlf ++ b ++ dashes ++ rest,
        header_lines p.1 ++ crlf ++ p.2 ++ crlf ++ b ++ dashes ++ rest, [], .undefined tb tp, ret,
        calls⟩ =
      match (if ret.type = data_type.list_t then ret.list_push_back (leaf b p)
             else some (leaf b p)) with
      | none => .error .payload_assert
      | some r => .ok ⟨r, false, sp.length - rest.length, parts_calls ecb [p] calls⟩ := by
  obtain ⟨key1, value1, h1⟩ := scan_part rec_call ecb sp (dashes ++ rest) b (.undefined tb tp)
    ret p.1 p.2 hwf key value [] calls
  have hc := close_part_leaf ecb ('\r' :: '\n' :: (b ++ '-' :: '-' :: rest)) b key1 value1 p.2
    ('\r' :: '\n' :: (b ++ '-' :: '-' :: rest)) tb .s_part_data p.1 tp ret
    (header_calls ecb p.1 calls) hwf.1.1
  have h2 := final_delimiter rec_call ecb sp rest b key1 value1 _ _ p.1 (.undefined tb tp) ret
    (header_calls ecb p.1 calls) _ _ hc
  simp only [crlf, dashes, List.append_assoc, List.cons_append, List.nil_append] at h1 h2 ⊢
  rw [h1, h2]
  rfl

theorem part_then_separator (rec_call : List Char → part → outcome) (ecb : event_cb)
    (sp : List Char) (rest b tb : List Char) (tp : prototype_type) (ret : part)
    (p : prototype_type × List Char)
    (hwf : well_formed_part b p) (key value : List Char) (calls : List callback_call) :
    ∃ key1 value1,
    run rec_call ecb sp ⟨header_lines p.1 ++ crlf ++ p.2 ++ crlf ++ b ++ crlf ++ rest,
        .s_header_field, b, key, value,
        header_lines p.1 ++ crlf ++ p.2 ++ crlf ++ b ++ crlf ++ rest,
        header_lines p.1 ++ crlf ++ p.2 ++ crlf ++ b ++ crlf ++ rest, [], .undefined tb tp, ret,
        calls⟩ =
      match ret.list_push_back (leaf b p) with
      | none => .error .payload_assert
      | some r =>
        run rec_call ecb sp ⟨rest, .s_header_field, b, key1, value1, rest, rest, [], Entry, r,
          parts_calls ecb [p] calls⟩ := by
  obtain ⟨key1, value1, h1⟩ := scan_part rec_call ecb sp (crlf ++ rest) b (.undefined tb tp)
    ret p.1 p.2 hwf key value [] calls
  refine ⟨key1, value1, ?_⟩
  have hc := close_part_leaf ecb ('\r' :: '\n' :: (b ++ '\r' :: '\n' :: rest)) b key1 value1 p.2
    ('\r' :: '\n' :: (b ++ '\r' :: '\n' :: rest)) tb .s_part_data p.1 tp ret
    (header_calls ecb p.1 calls) hwf.1.1
  have h2 := separator_delimiter rec_call ecb sp rest b key1 value1 _ _ p.1 (.undefined tb tp)
    ret (header_calls ecb p.1 calls) _ _ hc
  simp only [crlf, List.append_assoc, List.cons_append, List.nil_append] at h1 h2 ⊢
  rw [h1, h2]
  rfl

theorem scan_parts (rec_call : List Char → part → outcome) (ecb : event_cb)
    (sp : List Char) (rest b rb : List Char) (rp : prototype_type) :
    ∀ (ps : List (prototype_type × List Char)), (∀ p ∈ ps, well_formed_part b p) →
      ∀ (p : prototype_type × List Char), well_formed_part b p →
      ∀ (l : List part) (key value : List Char) (calls : List callback_call),
      run rec_call ecb sp ⟨header_lines p.1 ++ crlf ++ p.2 ++ crlf ++ flat_message b ps ++ rest,
        .s_header_field, b, key, value,
        header_lines p.1 ++ crlf ++ p.2 ++ crlf ++ flat_message b ps ++ rest,
        header_lines p.1 ++ crlf ++ p.2 ++ crlf ++ flat_message b ps ++ rest, [], Entry,
        .list rb rp l, calls⟩ =
      .ok ⟨.list rb rp (l ++ (p :: ps).map (leaf b)), false, sp.length - rest.length,
        parts_calls ecb (p :: ps) calls⟩ := by
  intro ps
  induction ps with
  | nil =>
    intro _ p hp l key value calls
    have h := part_then_final rec_call ecb sp rest b [] [] (.list rb rp l) p hp key value calls
    simp only [flat_message, parts_text, List.nil_append, List.append_assoc] at h ⊢
    rw [Entry, h]
    simp [part.type, part.list_push_back]
  | cons q qs ih =>
    intro hall p hp l key value calls
    obtain ⟨key1, value1, h⟩ := part_then_separator rec_call ecb sp
      (header_lines q.1 ++ crlf ++ q.2 ++ crlf ++ flat_message b qs ++ rest) b [] []
      (.list rb rp l) p hp key value calls
    have h2 := ih (fun x hx => hall x (by simp [hx])) q (hall q (by simp)) (l ++ [leaf b p])
      key1 value1 (parts_calls ecb [p] calls)
    simp only [flat_message, parts_text, leaf_text, List.nil_append, List.append_assoc,
      part.list_push_back] at h h2 ⊢
    rw [Entry, h, h2]
    simp [parts_calls]

theorem decode_recursive_eq (sp : List Char) (ret : part) (depth : Nat) (ecb : event_cb)
    (hd : depth < max_recursive_depth) (hsp : sp ≠ []) :
    decode_recursive sp ret depth ecb =
      run (fun i t => decode_recursive i t (depth + 1) ecb) ecb sp (initial_frame sp ret) := by
  unfold decode_recursive
  obtain ⟨k, hk⟩ : ∃ k, max_recursive_depth - depth = k + 1 := ⟨max_recursive_depth - depth - 1, by omega⟩
  have hk2 : max_recursive_depth - (depth + 1) = k := by omega
  rw [hk, hk2]
  cases sp with
  | nil => exact absurd rfl hsp
  | cons c sp1 => rfl

theorem decode_recursive_depth (sp : List Char) (ret : part) (depth : Nat) (ecb : event_cb)
    (hd : max_recursive_depth ≤ depth) :
    decode_recursive sp ret depth ecb = .ok ⟨ret, true, 0, []⟩ := by
  unfold decode_recursive
  rw [Nat.sub_eq_zero_of_le hd]
  rfl

theorem scan_opening (rec_call : List Char → part → outcome) (ecb : event_cb)
    (sp : List Char) (rest b : List Char) (hb : well_formed_boundary b) (ret : part) :
    run rec_call ecb sp ⟨b ++ crlf ++ rest, .s_start, [], [], [], sp, sp, [], Entry, ret, []⟩ =
      run rec_call ecb sp ⟨rest, .s_header_field, b, [], [], rest, rest, [], Entry, ret,
        invoke ecb.boundary_ .boundary b []⟩ := by
  obtain ⟨h2, hcr⟩ := hb
  have hb' : b = '-' :: '-' :: b.drop 2 := by
    conv_lhs => rw [← List.take_append_drop 2 b, h2]
    rfl
  generalize b.drop 2 = t at hb' hcr
  subst hb'
  have h := scan_boundary rec_call ecb sp rest [] [] sp sp [] Entry ret [] t hcr ['-', '-']
  simp only [crlf, List.append_assoc, List.cons_append, List.nil_append] at h ⊢
  rw [run_cons _ _ _ _ '-' ('-' :: (t ++ '\r' :: '\n' :: rest)) rfl]
  simp only [step, start_body, start_boundary_body]
  simpa using h

theorem decode_flat (ecb : event_cb) (b : List Char) (p : prototype_type × List Char)
    (ps : List (prototype_type × List Char)) (rest : List Char) (depth : Nat)
    (hb : well_formed_boundary b) (hp : ∀ q ∈ p :: ps, well_formed_part b q)
    (hd : depth < max_recursive_depth) :
    decode_recursive (flat_message b (p :: ps) ++ rest) Entry depth ecb =
      .ok ⟨flat_tree b (p :: ps), false, (flat_message b (p :: ps)).length,
        parts_calls ecb (p :: ps) (invoke ecb.boundary_ .boundary b [])⟩ := by
  have hne : flat_message b (p :: ps) ++ rest ≠ [] := by
    have : b ≠ [] := by
      intro hc; rw [hc] at hb; exact absurd hb.1 (by simp [dashes])
    simp [flat_message, parts_text, leaf_text, this]
  rw [decode_recursive_eq _ _ _ _ hd hne]
  generalize hsp : flat_message b (p :: ps) ++ rest = sp
  have hlen : sp.length - rest.length = (flat_message b (p :: ps)).length := by
    rw [← hsp]; simp
  have h0 := scan_opening (fun i t => decode_recursive i t (depth + 1) ecb) ecb sp
    (header_lines p.1 ++ crlf ++ p.2 ++ crlf ++ flat_message b ps ++ rest) b hb Entry
  have e : b ++ crlf ++ (header_lines p.1 ++ crlf ++ p.2 ++ crlf ++ flat_message b ps ++ rest)
      = sp := by
    rw [← hsp]; simp [flat_message, parts_text, leaf_text]
  rw [e] at h0
  rw [initial_frame, h0, ← hlen]
  cases ps with
  | nil =>
    have h := part_then_final (fun i t => decode_recursive i t (depth + 1) ecb) ecb sp rest b
      [] [] Entry p (hp p (by simp)) [] [] (invoke ecb.boundary_ .boundary b [])
    simp only [flat_message, parts_text, List.nil_append, List.append_assoc, Entry] at h ⊢
    rw [h]
    simp [part.type, flat_tree]
  | cons q qs =>
    obtain ⟨key1, value1, h⟩ := part_then_separator
      (fun i t => decode_recursive i t (depth + 1) ecb) ecb sp
      (header_lines q.1 ++ crlf ++ q.2 ++ crlf ++ flat_message b qs ++ rest) b [] []
      Entry p (hp p (by simp)) [] [] (invoke ecb.boundary_ .boundary b [])
    have h2 := scan_parts (fun i t => decode_recursive i t (depth + 1) ecb) ecb sp rest b [] []
      qs (fun x hx => hp x (by simp [hx])) q (hp q (by simp)) [leaf b p] key1 value1
      (parts_calls ecb [p] (invoke ecb.boundary_ .boundary b []))
    simp only [flat_message, parts_text, leaf_text, List.nil_append, List.append_assoc,
      part.list_push_back, Entry] at h h2 ⊢
    rw [h, h2]
    simp [parts_calls, flat_tree]

theorem write_prototype_fst (hs : prototype_type) :
    ∀ (o : List Char × Nat), (write_prototype o hs).1 = o.1 ++ header_lines hs := by
  induction hs with
  | nil => intro o; simp [write_prototype, header_lines]
  | cons h hs ih =>
    intro o
    simp [write_prototype, ih, write_string, header_lines, header_line]

theorem encode_leaf_child (b : List Char) (hs : prototype_type) (c : List Char) (d : Nat) :
    (encode_recursive (.content b hs c) false (d + 1)).1 = leaf_text b (hs, c) := by
  simp [encode_recursive, write_string, write_prototype_fst, leaf_text]

theorem encode_children_homogeneous (b : List Char) (d : Nat) :
    ∀ (l : List part), (∀ e ∈ l, e.type = data_type.content_t ∧ e.boundary = b) →
      ∀ (o : List Char × Nat) (bd : List Char) (w : Bool), (bd = [] ∨ bd = b) →
      (encode_children l d o bd w).1.1 = o.1 ++ serializations l ∧
      (encode_children l d o bd w).2.1 = (if l.isEmpty then bd else b) ∧
      (encode_children l d o bd w).2.2 = w := by
  intro l
  induction l with
  | nil => intro _ o bd w _; simp [encode_children, serializations]
  | cons e l ih =>
    intro h o bd w hbd
    obtain ⟨ht, hb⟩ := h e (by simp)
    cases e with
    | content eb hs c =>
      simp only [part.boundary] at hb
      subst hb
      have ih' := fun o' => ih (fun x hx => h x (by simp [hx])) o' eb w (Or.inr rfl)
      rcases hbd with hbd | hbd
      · subst hbd
        simp only [encode_children, part.boundary, if_true]
        obtain ⟨h1, h2, h3⟩ := ih' (o.1 ++ (encode_recursive (.content eb hs c) false (d + 1)).1,
          o.2 + (encode_recursive (.content eb hs c) false (d + 1)).2)
        refine ⟨?_, ?_, h3⟩
        · rw [h1]; simp [serializations, leaf_serialization, encode_leaf_child]
        · rw [h2]; simp
      · subst hbd
        by_cases hbe : bd = []
        · subst hbe
          simp only [encode_children, part.boundary, if_true]
          obtain ⟨h1, h2, h3⟩ := ih' (o.1 ++ (encode_recursive (.content [] hs c) false (d + 1)).1,
            o.2 + (encode_recursive (.content [] hs c) false (d + 1)).2)
          refine ⟨?_, ?_, h3⟩
          · rw [h1]; simp [serializations, leaf_serialization, encode_leaf_child]
          · rw [h2]; simp
        · simp only [encode_children, part.boundary, hbe, if_false, ne_eq, not_true_eq_false]
          obtain ⟨h1, h2, h3⟩ := ih' (o.1 ++ (encode_recursive (.content bd hs c) false (d + 1)).1,
            o.2 + (encode_recursive (.content bd hs c) false (d + 1)).2)
          refine ⟨?_, ?_, h3⟩
          · rw [h1]; simp [serializations, leaf_serialization, encode_leaf_child]
          · rw [h2]; simp
    | list _ _ _ => simp [part.type] at ht
    | undefined _ _ => simp [part.type] at ht

/-- C6. Root leaf encoding: `encode` of a content part with boundary `b`, headers
`hs` and content `c` writes the boundary line, one line `name: value` per
header, a blank line, the content, CRLF and then the final delimiter
`b--` CRLF; encoded as a child of a list (any depth above zero) the same leaf
is written without that trailing delimiter. -/
theorem root_leaf_encoding (b : List Char) (hs : prototype_type) (c : List Char) :
    (encode (.content b hs c)).1 =
        b ++ crlf ++ header_lines hs ++ crlf ++ c ++ crlf ++ b ++ dashes ++ crlf ∧
      ∀ d : Nat, (encode_recursive (.content b hs c) false (d + 1)).1 =
        b ++ crlf ++ header_lines hs ++ crlf ++ c ++ crlf := by
  refine ⟨?_, fun d => ?_⟩
  · simp [encode, encode_recursive, write_string, write_prototype_fst]
  · simp [encode_recursive, write_string, write_prototype_fst]

/-- C7. Homogeneous list encoding: for a root list with empty boundary and no
headers whose children, at least one, are all content parts with the same
non-empty boundary `b`, `encode` writes the leaf serializations of the children
in order followed by one final delimiter `b--` CRLF, and nothing else. -/
theorem homogeneous_list_encoding (b : List Char) (l : List part) (_hb : b ≠ [])
    (hl : l ≠ []) (h : ∀ e ∈ l, e.type = data_type.content_t ∧ e.boundary = b) :
    (encode (.list [] [] l)).1 = serializations l ++ b ++ dashes ++ crlf := by
  obtain ⟨h1, h2, h3⟩ := encode_children_homogeneous b 0 l h ([], 0) [] false (Or.inl rfl)
  simp only [encode, encode_recursive, ne_eq, not_true_eq_false, if_false, write_prototype,
    h3, if_true, write_string, h1, h2]
  have : l.isEmpty = false := by cases l <;> simp_all
  simp [this]

/-- C7 at a concrete list of two leaves with boundary `--B`. -/
theorem homogeneous_list_encoding_witness :
    ("--B".toList ≠ [] ∧
      [part.content "--B".toList [("K".toList, "V".toList)] "hello".toList,
        part.content "--B".toList [("K2".toList, "V2".toList)] "world".toList] ≠ []) ∧
    (encode (.list [] []
      [part.content "--B".toList [("K".toList, "V".toList)] "hello".toList,
        part.content "--B".toList [("K2".toList, "V2".toList)] "world".toList])).1 =
      serializations
        [part.content "--B".toList [("K".toList, "V".toList)] "hello".toList,
          part.content "--B".toList [("K2".toList, "V2".toList)] "world".toList]
        ++ "--B".toList ++ dashes ++ crlf :=
  ⟨⟨by decide, by simp⟩,
    homogeneous_list_encoding "--B".toList _ (by decide) (by simp)
      (by intro e he; simp at he; rcases he with rfl | rfl <;> exact ⟨rfl, rfl⟩)⟩

/-- C8. Heterogeneous boundaries: for a list whose three content children have
the boundaries `A`, `A`, `B` (both non-empty, different), `encode` writes what
the list itself opens with (nothing for a root list without boundary and
headers), then the first two leaves, then the delimiter `A--` CRLF, then the
third leaf, and no delimiter for `B` after it. -/
theorem heterogeneous_list_encoding (rb : List Char) (rp : prototype_type) (A B : List Char)
    (h1 h2 h3 : prototype_type) (c1 c2 c3 : List Char) (hA : A ≠ []) (_hB : B ≠ [])
    (hAB : A ≠ B) :
    (encode (.list rb rp [.content A h1 c1, .content A h2 c2, .content B h3 c3])).1 =
        list_opening rb rp ++ leaf_text A (h1, c1) ++ leaf_text A (h2, c2) ++
          (A ++ dashes ++ crlf) ++ leaf_text B (h3, c3) ∧
      (encode (.list [] [] [.content A h1 c1, .content A h2 c2, .content B h3 c3])).1 =
        leaf_text A (h1, c1) ++ leaf_text A (h2, c2) ++ (A ++ dashes ++ crlf) ++
          leaf_text B (h3, c3) := by
  have key : ∀ (rb : List Char) (rp : prototype_type),
      (encode (.list rb rp [.content A h1 c1, .content A h2 c2, .content B h3 c3])).1 =
        list_opening rb rp ++ leaf_text A (h1, c1) ++ leaf_text A (h2, c2) ++
          (A ++ dashes ++ crlf) ++ leaf_text B (h3, c3) := by
    intro rb rp
    by_cases hrb : rb = []
    · simp [encode, encode_recursive, encode_children, write_string, write_prototype_fst,
        list_opening, leaf_text, part.boundary, hA, hAB, hrb]
    · simp [encode, encode_recursive, encode_children, write_string, write_prototype_fst,
        list_opening, leaf_text, part.boundary, hA, hAB, hrb]
  refine ⟨key rb rp, ?_⟩
  have := key [] []
  simpa [list_opening, header_lines] using this

/-- C8 at the boundaries `--A`, `--A`, `--B`. -/
theorem heterogeneous_list_encoding_witness :
    ("--A".toList ≠ [] ∧ "--B".toList ≠ [] ∧ "--A".toList ≠ "--B".toList) ∧
    (encode (.list [] [] [.content "--A".toList [("K".toList, "1".toList)] "a".toList,
      .content "--A".toList [("K".toList, "2".toList)] "b".toList,
      .content "--B".toList [("K".toList, "3".toList)] "c".toList])).1 =
      "--A\r\nK: 1\r\n\r\na\r\n--A\r\nK: 2\r\n\r\nb\r\n--A--\r\n--B\r\nK: 3\r\n\r\nc\r\n".toList :=
  ⟨⟨by decide, by decide, by decide⟩,
    ((heterogeneous_list_encoding [] [] "--A".toList "--B".toList [("K".toList, "1".toList)]
      [("K".toList, "2".toList)] [("K".toList, "3".toList)] "a".toList "b".toList "c".toList
      (by decide) (by decide) (by decide)).2).trans (by decide)⟩

/-- C10. Missing leading dashes: on every input that does not start with the two
bytes `--` (the empty input and the input `-` included) `decode_recursive` sets
the error flag and leaves `ret` untouched, and `decode` returns the default
part. -/
theorem missing_leading_dashes (sp : List Char) (ecb : event_cb)
    (h : sp.take 2 ≠ dashes) :
    (∃ n, decode_recursive sp Entry 0 ecb = .ok ⟨Entry, true, n, []⟩) ∧
      decode sp ecb = .ok Entry := by
  have key : ∃ n, decode_recursive sp Entry 0 ecb = .ok ⟨Entry, true, n, []⟩ := by
    cases sp with
    | nil => exact ⟨0, rfl⟩
    | cons c sp1 =>
      rw [decode_recursive_eq _ _ _ _ (by decide) (by simp), initial_frame,
        run_cons _ _ _ _ c sp1 rfl]
      by_cases hc : c = '-'
      · subst hc
        cases sp1 with
        | nil => exact ⟨['-'].length - ([] : List Char).length, by simp [step, start_body, fail]⟩
        | cons c1 sp2 =>
          have hc1 : c1 ≠ '-' := by
            intro hc1; subst hc1; exact h (by simp [dashes])
          exact ⟨('-' :: c1 :: sp2).length - sp2.length, by simp [step, start_body, fail, hc1]⟩
      · exact ⟨(c :: sp1).length - sp1.length, by simp [step, start_body, fail, hc]⟩
  obtain ⟨n, hn⟩ := key
  exact ⟨⟨n, hn⟩, by simp [decode, hn]⟩

/-- C10 at the one-byte input `-`. -/
theorem missing_leading_dashes_witness :
    "-".toList.take 2 ≠ dashes ∧
      ((∃ n, decode_recursive "-".toList Entry 0 no_callbacks = .ok ⟨Entry, true, n, []⟩) ∧
        decode "-".toList no_callbacks = .ok Entry) :=
  ⟨by decide, missing_leading_dashes "-".toList no_callbacks (by decide)⟩

/-- C4. On the input that ends right after a separator delimiter line the
decoder is awaiting a header name when the input is exhausted; the loop is left
through the trailing `return` with the error flag clear, and `decode` returns
the list holding the first part instead of the default part. -/
theorem exhausted_awaiting_header_name :
    decode_recursive ends_after_separator Entry 0 no_callbacks =
        .ok ⟨.list [] [] [.content "--B".toList [("K".toList, "V".toList)] "hello".toList],
          false, 25, []⟩ ∧
      decode ends_after_separator no_callbacks =
        .ok (.list [] [] [.content "--B".toList [("K".toList, "V".toList)] "hello".toList]) :=
  ⟨rfl, rfl⟩

/-- C2. Simple two-part scenario: the two-part message decodes to a list of
exactly two content parts, in order, with headers `K: V` and `K2: V2` and
content `hello` and `world`, and `encode` of that tree writes the input back;
in general a flat message of `n >= 2` well-formed parts decodes to a list of
`n` children whose `i`-th child is a content part carrying the `i`-th header
block and the `i`-th body. -/
theorem two_part_scenario (ecb : event_cb) (b : List Char) (p q : prototype_type × List Char)
    (ps : List (prototype_type × List Char)) (rest : List Char)
    (hb : well_formed_boundary b) (hp : ∀ x ∈ p :: q :: ps, well_formed_part b x) :
    (decode two_part_input no_callbacks = .ok two_part_tree ∧
      (encode two_part_tree).1 = two_part_input) ∧
    ∃ l : List part,
      decode (flat_message b (p :: q :: ps) ++ rest) ecb = .ok (.list [] [] l) ∧
      l.length = (p :: q :: ps).length ∧
      ∀ (i : Nat) (hi : i < (p :: q :: ps).length),
        l[i]? = some (.content b ((p :: q :: ps)[i]).1 ((p :: q :: ps)[i]).2) := by
  refine ⟨⟨rfl, by decide⟩, (p :: q :: ps).map (leaf b), ?_, by simp, ?_⟩
  · have h := decode_flat ecb b p (q :: ps) rest 0 hb hp (by decide)
    simp [decode, h, flat_tree]
  · intro i hi
    rw [List.getElem?_map, List.getElem?_eq_getElem hi]
    rfl

/-- C2 at the two-part message itself, read as a flat message with boundary
`--B`. -/
theorem two_part_scenario_witness :
    (well_formed_boundary "--B".toList ∧
      ∀ x ∈ [([("K".toList, "V".toList)], "hello".toList),
        ([("K2".toList, "V2".toList)], "world".toList)], well_formed_part "--B".toList x) ∧
    ∃ l : List part,
      decode (flat_message "--B".toList [([("K".toList, "V".toList)], "hello".toList),
        ([("K2".toList, "V2".toList)], "world".toList)] ++ crlf) no_callbacks =
          .ok (.list [] [] l) ∧ l.length = 2 :=
  ⟨⟨by decide, by decide⟩,
    let ⟨l, h1, h2, _⟩ := (two_part_scenario no_callbacks "--B".toList
      ([("K".toList, "V".toList)], "hello".toList) ([("K2".toList, "V2".toList)], "world".toList)
      [] crlf (by decide) (by decide)).2
    ⟨l, h1, h2⟩⟩

theorem content_type_name_well_formed : well_formed_name content_type_name := by
  decide

theorem scan_wrapped_opening (rec_call : List Char → part → outcome) (ecb : event_cb)
    (ob : List Char) (h : keyvalue_type) (tail : List Char) (ret : part)
    (hob : well_formed_boundary ob) (hname : h.1 = content_type_name)
    (hv : well_formed_value h.2) (hre : regex_match_multipart h.2 = true) :
    run rec_call ecb (ob ++ crlf ++ header_line h ++ crlf ++ tail)
        (initial_frame (ob ++ crlf ++ header_line h ++ crlf ++ tail) ret) =
      match rec_call tail Entry with
      | .error f => .error f
      | .ok r =>
        if r.err then
          .ok ⟨ret, true, (ob ++ crlf ++ header_line h ++ crlf ++ tail).length - tail.length,
            opening_calls ecb ob h ++ r.calls⟩
        else
          run rec_call ecb (ob ++ crlf ++ header_line h ++ crlf ++ tail)
            ⟨tail.drop r.pos, .s_part_data, ob, h.1, h.2, tail.drop r.pos, tail.drop r.pos,
              [h], r.ret, ret, opening_calls ecb ob h ++ r.calls⟩ := by
  generalize hsp : ob ++ crlf ++ header_line h ++ crlf ++ tail = sp
  have hn : well_formed_name h.1 := by rw [hname]; exact content_type_name_well_formed
  have h0 := scan_opening rec_call ecb sp (header_line h ++ crlf ++ tail) ob hob ret
  have e : ob ++ crlf ++ (header_line h ++ crlf ++ tail) = sp := by rw [← hsp]; simp
  rw [e] at h0
  have h1 := scan_header_line rec_call ecb sp ('\r' :: '\n' :: tail) ob [] [] [] Entry ret
    (invoke ecb.boundary_ .boundary ob []) h hn hv
  have h2 := value_end_nested rec_call ecb sp tail ob h.1 [] h.2 hname hre [] Entry ret
    (invoke ecb.header_field_ .header_field h.1 (invoke ecb.boundary_ .boundary ob []))
  simp only [crlf, List.append_assoc, List.cons_append, List.nil_append] at h0 h1 h2 ⊢
  rw [initial_frame, h0, h1, h2]
  rfl

theorem decode_wrapped (ecb : event_cb) (ob : List Char) (h : keyvalue_type)
    (inner rest : List Char) (depth : Nat) (T : part) (cl : List callback_call)
    (hob : well_formed_boundary ob) (hname : h.1 = content_type_name)
    (hv : well_formed_value h.2) (hre : regex_match_multipart h.2 = true)
    (hd : depth < max_recursive_depth)
    (hinner : decode_recursive (inner ++ crlf ++ ob ++ dashes ++ rest) Entry (depth + 1) ecb =
      .ok ⟨T, false, inner.length, cl⟩)
    (hT : T.type ≠ data_type.undefined_t) :
    decode_recursive (ob ++ crlf ++ header_line h ++ crlf ++
        (inner ++ crlf ++ ob ++ dashes ++ rest)) Entry depth ecb =
      .ok ⟨(T.set_boundary ob).set_prototype [h], false,
        (ob ++ crlf ++ header_line h ++ crlf ++ (inner ++ crlf ++ ob ++ dashes)).length,
        opening_calls ecb ob h ++ cl⟩ := by
  rw [decode_recursive_eq _ _ _ _ hd (by simp [header_line]),
    scan_wrapped_opening _ ecb ob h _ Entry hob hname hv hre, hinner]
  generalize hsp : ob ++ crlf ++ header_line h ++ crlf ++ (inner ++ crlf ++ ob ++ dashes ++ rest)
    = sp
  have hlen : sp.length - rest.length =
      (ob ++ crlf ++ header_line h ++ crlf ++ (inner ++ crlf ++ ob ++ dashes)).length := by
    rw [← hsp]; simp; omega
  have hdrop : (inner ++ crlf ++ ob ++ dashes ++ rest).drop inner.length =
      '\r' :: '\n' :: (ob ++ '-' :: '-' :: rest) := by
    simp [crlf, dashes]
  have hc := close_part_filled ecb ('\r' :: '\n' :: (ob ++ '-' :: '-' :: rest)) ob h.1 h.2
    ('\r' :: '\n' :: (ob ++ '-' :: '-' :: rest)) ('\r' :: '\n' :: (ob ++ '-' :: '-' :: rest))
    .s_part_data [h] T Entry (opening_calls ecb ob h ++ cl) (by simp) hT
  have hf := final_delimiter (fun i t => decode_recursive i t (depth + 1) ecb) ecb sp rest ob
    h.1 h.2 _ _ [h] T Entry (opening_calls ecb ob h ++ cl) _ _ hc
  simp only [Bool.false_eq_true, if_false, hdrop]
  rw [hf, hlen]
  simp [Entry, part.type]

theorem decode_wrapped_error (ecb : event_cb) (ob : List Char) (h : keyvalue_type)
    (tail : List Char) (depth : Nat) (T : part) (n : Nat) (cl : List callback_call)
    (hob : well_formed_boundary ob) (hname : h.1 = content_type_name)
    (hv : well_formed_value h.2) (hre : regex_match_multipart h.2 = true)
    (hd : depth < max_recursive_depth)
    (hinner : decode_recursive tail Entry (depth + 1) ecb = .ok ⟨T, true, n, cl⟩) :
    decode_recursive (ob ++ crlf ++ header_line h ++ crlf ++ tail) Entry depth ecb =
      .ok ⟨Entry, true, (ob ++ crlf ++ header_line h ++ crlf).length,
        opening_calls ecb ob h ++ cl⟩ := by
  rw [decode_recursive_eq _ _ _ _ hd (by simp [header_line]),
    scan_wrapped_opening _ ecb ob h _ Entry hob hname hv hre, hinner]
  simp
  omega

theorem flat_tree_defined (b : List Char) (p : prototype_type × List Char)
    (ps : List (prototype_type × List Char)) :
    (flat_tree b (p :: ps)).type ≠ data_type.undefined_t := by
  cases ps <;> simp [flat_tree, leaf, part.type]

theorem same_payload_set (T : part) (b : List Char) (hs : prototype_type) :
    same_payload ((T.set_boundary b).set_prototype hs) T := by
  cases T <;> simp [part.set_boundary, part.set_prototype, same_payload]

/-- C3. Nested multipart scenario: let `I` be a flat message of well-formed
parts; it decodes on its own, without error, consuming all of `I`.  Wrapped as
the body of an outer part `--OUT` with the single header
`Content-Type: multipart/mixed boundary=INNER` and closed by `--OUT--`, the
message decodes without error to a part with the kind and the payload of the
tree of `I`, and the top-level call consumes the input exactly through the
outer final delimiter. -/
theorem nested_scenario (ecb : event_cb) (b : List Char) (p : prototype_type × List Char)
    (ps : List (prototype_type × List Char)) (hb : well_formed_boundary b)
    (hp : ∀ x ∈ p :: ps, well_formed_part b x) :
    (∃ cl, decode_recursive (flat_message b (p :: ps)) Entry 0 ecb =
      .ok ⟨flat_tree b (p :: ps), false, (flat_message b (p :: ps)).length, cl⟩) ∧
    ∃ T cl,
      decode_recursive (wrap_message (flat_message b (p :: ps))) Entry 0 ecb =
        .ok ⟨T, false, (wrap_message (flat_message b (p :: ps))).length, cl⟩ ∧
      decode (wrap_message (flat_message b (p :: ps))) ecb = .ok T ∧
      T.type = (flat_tree b (p :: ps)).type ∧
      same_payload T (flat_tree b (p :: ps)) := by
  constructor
  · have h := decode_flat ecb b p ps [] 0 hb hp (by decide)
    rw [List.append_nil] at h
    exact ⟨_, h⟩
  · have hin := decode_flat ecb b p ps (crlf ++ outer_boundary ++ dashes ++ []) 1 hb hp
      (by decide)
    have hin' : decode_recursive
        (flat_message b (p :: ps) ++ crlf ++ outer_boundary ++ dashes ++ []) Entry (0 + 1) ecb =
        .ok ⟨flat_tree b (p :: ps), false, (flat_message b (p :: ps)).length,
          parts_calls ecb (p :: ps) (invoke ecb.boundary_ .boundary b [])⟩ := by
      simpa using hin
    have h := decode_wrapped ecb outer_boundary outer_header (flat_message b (p :: ps)) [] 0
      (flat_tree b (p :: ps)) _ (by decide) rfl (by decide) (by decide) (by decide) hin'
      (flat_tree_defined b p ps)
    simp only [List.append_nil] at h
    refine ⟨_, _, h, ?_, ?_, same_payload_set _ _ _⟩
    · simp only [decode, wrap_message, h]
      rfl
    · cases flat_tree b (p :: ps) <;> rfl

/-- C3 at the two parts `hello` and `world` with inner boundary `--INNER`. -/
theorem nested_scenario_witness :
    (well_formed_boundary "--INNER".toList ∧
      ∀ x ∈ [([("K".toList, "V".toList)], "hello".toList),
        ([("K2".toList, "V2".toList)], "world".toList)],
        well_formed_part "--INNER".toList x) ∧
    ∃ T cl,
      decode_recursive (wrap_message (flat_message "--INNER".toList
        [([("K".toList, "V".toList)], "hello".toList),
          ([("K2".toList, "V2".toList)], "world".toList)])) Entry 0 no_callbacks =
        .ok ⟨T, false, 123, cl⟩ ∧ T.type = data_type.list_t :=
  ⟨⟨by decide, by decide⟩,
    let ⟨T, cl, h1, _, h3, _⟩ := (nested_scenario no_callbacks "--INNER".toList
      ([("K".toList, "V".toList)], "hello".toList)
      [([("K2".toList, "V2".toList)], "world".toList)] (by decide) (by decide)).2
    ⟨T, cl, h1, h3⟩⟩

theorem nest_ok (ecb : event_cb) :
    ∀ (k depth : Nat) (rest : List Char), depth + k < max_recursive_depth →
      ∃ cl, decode_recursive (nest k ++ rest) Entry depth ecb =
        .ok ⟨nest_tree k, false, (nest k).length, cl⟩ := by
  intro k
  induction k with
  | zero =>
    intro depth rest hd
    have h := decode_flat ecb "--X".toList ([("K".toList, "V".toList)], "hello".toList) [] rest
      depth (by decide) (by decide) (by omega)
    exact ⟨_, h⟩
  | succ k ih =>
    intro depth rest hd
    obtain ⟨cl, hin⟩ := ih (depth + 1) (crlf ++ "--X".toList ++ dashes ++ rest) (by omega)
    have hin' : decode_recursive (nest k ++ crlf ++ "--X".toList ++ dashes ++ rest) Entry
        (depth + 1) ecb = .ok ⟨nest_tree k, false, (nest k).length, cl⟩ := by
      simpa only [List.append_assoc] using hin
    have h := decode_wrapped ecb "--X".toList nest_header (nest k) rest depth (nest_tree k) cl
      (by decide) rfl (by decide) (by decide) (by omega) hin'
      (by cases k <;> simp [nest_tree, part.type])
    refine ⟨opening_calls ecb "--X".toList nest_header ++ cl, ?_⟩
    have e : nest (k + 1) ++ rest = "--X".toList ++ crlf ++ header_line nest_header ++ crlf ++
        (nest k ++ crlf ++ "--X".toList ++ dashes ++ rest) := by
      simp only [nest, List.append_assoc]
    have e2 : ((nest_tree k).set_boundary "--X".toList).set_prototype [nest_header] =
        nest_tree (k + 1) := by
      cases k <;> rfl
    rw [e, h, e2]
    rfl

theorem nest_fail (ecb : event_cb) :
    ∀ (k depth : Nat) (rest : List Char), max_recursive_depth ≤ depth + k →
      ∃ n cl, decode_recursive (nest k ++ rest) Entry depth ecb = .ok ⟨Entry, true, n, cl⟩ := by
  intro k
  induction k with
  | zero =>
    intro depth rest hd
    exact ⟨0, [], decode_recursive_depth _ _ _ _ (by omega)⟩
  | succ k ih =>
    intro depth rest hd
    by_cases hlt : depth < max_recursive_depth
    · obtain ⟨n, cl, hin⟩ := ih (depth + 1) (crlf ++ "--X".toList ++ dashes ++ rest) (by omega)
      have h := decode_wrapped_error ecb "--X".toList nest_header _ depth Entry n cl
        (by decide) rfl (by decide) (by decide) hlt hin
      refine ⟨("--X".toList ++ crlf ++ header_line nest_header ++ crlf).length,
        opening_calls ecb "--X".toList nest_header ++ cl, ?_⟩
      have e : nest (k + 1) ++ rest = "--X".toList ++ crlf ++ header_line nest_header ++ crlf ++
          (nest k ++ (crlf ++ "--X".toList ++ dashes ++ rest)) := by
        simp only [nest, List.append_assoc]
      rw [e, h]
    · exact ⟨0, [], decode_recursive_depth _ _ _ _ (by omega)⟩

theorem decode_of_error (sp : List Char) (ecb : event_cb) (T : part) (n : Nat)
    (cl : List callback_call) (h : decode_recursive sp Entry 0 ecb = .ok ⟨T, true, n, cl⟩) :
    decode sp ecb = .ok Entry := by
  simp [decode, h]

theorem decode_of_success (sp : List Char) (ecb : event_cb) (T : part) (n : Nat)
    (cl : List callback_call) (h : decode_recursive sp Entry 0 ecb = .ok ⟨T, false, n, cl⟩) :
    decode sp ecb = .ok T := by
  simp [decode, h]

theorem nest_tree_defined (k : Nat) : (nest_tree k).type ≠ data_type.undefined_t := by
  cases k <;> simp [nest_tree, part.type]

/-- C9. Depth guard: the message nested 101 levels deep fails (the error flag
is set, `ret` is untouched and `decode` returns the default part), while the
message nested 99 levels deep decodes without error to a part that is not
undefined. -/
theorem depth_guard (ecb : event_cb) :
    ((∃ n cl, decode_recursive (nest 101) Entry 0 ecb = .ok ⟨Entry, true, n, cl⟩) ∧
      decode (nest 101) ecb = .ok Entry) ∧
    ∃ T n cl, decode_recursive (nest 99) Entry 0 ecb = .ok ⟨T, false, n, cl⟩ ∧
      decode (nest 99) ecb = .ok T ∧ T.type ≠ data_type.undefined_t := by
  constructor
  · obtain ⟨n, cl, h⟩ := nest_fail ecb 101 0 [] (by decide)
    rw [List.append_nil] at h
    exact ⟨⟨n, cl, h⟩, decode_of_error _ _ _ _ _ h⟩
  · obtain ⟨cl, h⟩ := nest_ok ecb 99 0 [] (by decide)
    rw [List.append_nil] at h
    exact ⟨nest_tree 99, (nest 99).length, cl, h, decode_of_success _ _ _ _ _ h,
      nest_tree_defined 99⟩

theorem set_boundary_boundary (p : part) (b : List Char) : (p.set_boundary b).boundary = b := by
  cases p <;> rfl

theorem set_prototype_boundary (p : part) (hs : prototype_type) :
    (p.set_prototype hs).boundary = p.boundary := by
  cases p <;> rfl

theorem close_part_boundary (ecb : event_cb) (s : frame) (t : part) (cl : List callback_call)
    (h : close_part ecb s = some (t, cl)) : t.boundary = s.boundary := by
  obtain ⟨in_, st, bd, key, value, cb, ce, proto, tmp, ret, calls⟩ := s
  by_cases hp : proto = []
  · cases tmp <;>
      simp [close_part, part.type, part.assign_content, part.set_boundary, hp] at h <;>
      (rw [← h.1]; rfl)
  · cases tmp <;>
      simp [close_part, part.type, part.assign_content, part.set_boundary,
        part.set_prototype, hp] at h <;>
      (rw [← h.1]; rfl)

theorem collected_push (b : List Char) (ret t r : part) (hc : collected b ret)
    (ht : t.boundary = b) (h : ret.list_push_back t = some r) : collected b r := by
  rcases hc with hc | ⟨l, hc, hl⟩
  · subst hc
    simp only [Entry, part.list_push_back, Option.some.injEq] at h
    exact Or.inr ⟨[t], h.symm, by simpa using ht⟩
  · subst hc
    simp only [part.list_push_back, Option.some.injEq] at h
    refine Or.inr ⟨l ++ [t], h.symm, ?_⟩
    intro e he
    rcases List.mem_append.mp he with he | he
    · exact hl e he
    · simp at he; rw [he]; exact ht

theorem step_scanning (rec_call : List Char → part → outcome) (ecb : event_cb)
    (sp : List Char) (b : List Char) (s : frame) (c : Char) (in1 : List Char)
    (hs : scanning b s) :
    (∀ s1, step rec_call ecb sp s c in1 = .next s1 → scanning b s1) ∧
    (∀ r, step rec_call ecb sp s c in1 = .stop (.ok r) → r.err = false →
      collected b r.ret ∨ r.ret.boundary = b) := by
  obtain ⟨hb, hs1, hs2, hc⟩ := hs
  constructor
  · intro s1 h
    unfold step at h
    split at h
    · rename_i heq; exact absurd heq hs1
    · rename_i heq; exact absurd heq hs2
    · simp only [header_field_body] at h
      repeat' split at h
      all_goals first
        | (simp [fail] at h <;> fail)
        | (injection h with h; subst h; exact ⟨hb, by first | exact hs1 | simp, by first | exact hs2 | simp, hc⟩)
    · simp only [header_value_body] at h
      repeat' split at h
      all_goals first
        | (simp [fail] at h <;> fail)
        | (injection h with h; subst h; exact ⟨hb, by first | exact hs1 | simp, by first | exact hs2 | simp, hc⟩)
    · simp only [part_data_body] at h
      repeat' split at h
      all_goals first
        | (simp [fail] at h <;> fail)
        | (injection h with h; subst h; exact ⟨hb, by first | exact hs1 | simp, by first | exact hs2 | simp, hc⟩)
        | (rename_i hcl _ _ hpush
           injection h with h; subst h
           exact ⟨hb, by simp, by simp,
             collected_push b _ _ _ hc ((close_part_boundary _ _ _ _ hcl).trans hb) hpush⟩)
  · intro r h herr
    unfold step at h
    split at h
    · rename_i heq; exact absurd heq hs1
    · rename_i heq; exact absurd heq hs2
    · simp only [header_field_body] at h
      repeat' split at h
      all_goals first
        | (simp only [fail, step_result.stop.injEq, Except.ok.injEq] at h; rw [← h] at herr; exact Bool.noConfusion herr)
        | (simp at h <;> fail)
    · simp only [header_value_body] at h
      repeat' split at h
      all_goals first
        | (simp only [fail, step_result.stop.injEq, Except.ok.injEq] at h; rw [← h] at herr; exact Bool.noConfusion herr)
        | (simp at h <;> fail)
    · simp only [part_data_body] at h
      repeat' split at h
      all_goals first
        | (simp only [fail, step_result.stop.injEq, Except.ok.injEq] at h; rw [← h] at herr; exact Bool.noConfusion herr)
        | (simp at h <;> fail)
        | (rename_i hcl _ _ hpush
           injection h with h; injection h with h; subst h
           have ht := (close_part_boundary _ _ _ _ hcl).trans hb
           split at hpush
           · exact Or.inl (collected_push b _ _ _ hc ht hpush)
           · injection hpush with hpush; subst hpush; exact Or.inr ht)

theorem loop_scanning (rec_call : List Char → part → outcome) (ecb : event_cb)
    (sp : List Char) (b : List Char) :
    ∀ (fuel : Nat) (s : frame), scanning b s → ∀ r : decoded,
      decode_loop rec_call ecb sp fuel s = .ok r → r.err = false →
      collected b r.ret ∨ r.ret.boundary = b := by
  intro fuel
  induction fuel with
  | zero => intro s _ r h; exact nomatch h
  | succ n ih =>
    intro s hs r h herr
    rw [decode_loop_succ] at h
    cases hin : s.in_ with
    | nil =>
      simp only [hin, Except.ok.injEq] at h
      rw [← h]
      exact Or.inl hs.2.2.2
    | cons c in1 =>
      simp only [hin] at h
      cases hst : step rec_call ecb sp s c in1 with
      | next s1 =>
        simp only [hst] at h
        exact ih s1 ((step_scanning rec_call ecb sp b s c in1 hs).1 s1 hst) r h herr
      | stop o =>
        simp only [hst] at h
        subst h
        exact (step_scanning rec_call ecb sp b s c in1 hs).2 r hst herr

/-- C5 (as amended). Boundary token with its dashes: when an input whose opening
line is `--`, a token `t` free of CR, and CRLF is decoded without error, every
part delivered at the top level carries the boundary `--t`, the opening line
with its two dashes: the output is still the default part, or it is one part
with boundary `--t`, or it is a list with empty boundary and no headers whose
children all have boundary `--t`.  In the two-part scenario the root list has
the empty boundary and both content parts have boundary `--B`. -/
theorem boundary_keeps_dashes (ecb : event_cb) (t rest : List Char) (r : decoded)
    (ht : ∀ c ∈ t, c ≠ '\r')
    (h : decode_recursive (dashes ++ t ++ crlf ++ rest) Entry 0 ecb = .ok r)
    (herr : r.err = false) :
    (r.ret = Entry ∨ r.ret.boundary = dashes ++ t ∨
      ∃ l, r.ret = .list [] [] l ∧ ∀ e ∈ l, e.boundary = dashes ++ t) ∧
    (decode two_part_input no_callbacks = .ok two_part_tree ∧
      two_part_tree.boundary = [] ∧
      ∃ l, two_part_tree = .list [] [] l ∧ ∀ e ∈ l, e.boundary = "--B".toList) := by
  constructor
  · have hb : well_formed_boundary (dashes ++ t) := ⟨rfl, by simpa [dashes] using ht⟩
    rw [decode_recursive_eq _ _ _ _ (by decide) (by simp [dashes]), initial_frame,
      scan_opening _ ecb _ rest (dashes ++ t) hb Entry] at h
    have hs : scanning (dashes ++ t) ⟨rest, .s_header_field, dashes ++ t, [], [], rest, rest, [],
        Entry, Entry, invoke ecb.boundary_ .boundary (dashes ++ t) []⟩ :=
      ⟨rfl, by simp, by simp, Or.inl rfl⟩
    rcases loop_scanning _ ecb _ (dashes ++ t) _ _ hs r h herr with hc | hc
    · rcases hc with hc | hc
      · exact Or.inl hc
      · exact Or.inr (Or.inr hc)
    · exact Or.inr (Or.inl hc)
  · refine ⟨rfl, rfl, _, rfl, ?_⟩
    intro e he
    simp at he
    rcases he with rfl | rfl <;> rfl

/-- C5 at the two-part message, token `B`. -/
theorem boundary_keeps_dashes_witness :
    ((∀ c ∈ "B".toList, c ≠ '\r') ∧
      decode_recursive (dashes ++ "B".toList ++ crlf ++ two_part_input.drop 5) Entry 0
        no_callbacks = .ok ⟨two_part_tree, false, 47, []⟩) ∧
    (two_part_tree = Entry ∨ two_part_tree.boundary = dashes ++ "B".toList ∨
      ∃ l, two_part_tree = .list [] [] l ∧ ∀ e ∈ l, e.boundary = dashes ++ "B".toList) :=
  ⟨⟨by decide, rfl⟩,
    (boundary_keeps_dashes no_callbacks "B".toList (two_part_input.drop 5)
      ⟨two_part_tree, false, 47, []⟩ (by decide) rfl rfl).1⟩

/-- C5 as stated fails: in the two-part scenario the decoded content parts carry
the boundary `--B`, not the token `B` without its dashes. -/
theorem boundary_without_dashes_fails :
    ∃ l, decode two_part_input no_callbacks = .ok (.list [] [] l) ∧ l.length = 2 ∧
      ∀ e ∈ l, e.type = data_type.content_t ∧ e.boundary = "--B".toList ∧
        e.boundary ≠ "B".toList := by
  refine ⟨_, rfl, rfl, ?_⟩
  intro e he
  simp at he
  rcases he with rfl | rfl <;> exact ⟨rfl, rfl, by decide⟩

set_option maxRecDepth 8192 in
/-- C1. Round trip on the nested message: it decodes without error to a list
with boundary `--OUT`; `encode` of that tree opens the outer part but never
writes its final delimiter `--OUT--`; decoding the written bytes sets the error
flag and `decode` returns the default part instead of the tree. -/
theorem nested_round_trip_breaks :
    decode_recursive nested_input Entry 0 no_callbacks = .ok ⟨nested_tree, false, 123, []⟩ ∧
    decode nested_input no_callbacks = .ok nested_tree ∧
    (encode nested_tree).1 = nested_reencoded ∧
    decode_recursive nested_reencoded Entry 0 no_callbacks = .ok ⟨Entry, true, 116, []⟩ ∧
    decode nested_reencoded no_callbacks = .ok Entry ∧
    nested_tree.type ≠ Entry.type :=
  ⟨rfl, rfl, by decide, rfl, rfl, by decide⟩

theorem step_no_fuel_fault (rec_call : List Char → part → outcome) (ecb : event_cb)
    (sp : List Char) (s : frame) (c : Char) (in1 : List Char)
    (hrec : ∀ i t, rec_call i t ≠ .error .fuel) (o : outcome)
    (h : step rec_call ecb sp s c in1 = .stop o) : o ≠ .error .fuel := by
  intro ho
  subst ho
  unfold step at h
  split at h
  · simp only [start_body, start_boundary_body] at h
    repeat' split at h
    all_goals (simp [fail] at h <;> fail)
  · simp only [start_boundary_body] at h
    repeat' split at h
    all_goals (simp [fail] at h <;> fail)
  · simp only [header_field_body] at h
    repeat' split at h
    all_goals (simp [fail] at h <;> fail)
  · simp only [header_value_body] at h
    repeat' split at h
    all_goals first
      | (simp [fail] at h <;> fail)
      | (rename_i f hr; injection h with h; injection h with h; subst h; exact hrec _ _ hr)
  · simp only [part_data_body] at h
    repeat' split at h
    all_goals (simp [fail] at h <;> fail)

theorem decode_loop_no_fuel_fault (rec_call : List Char → part → outcome) (ecb : event_cb)
    (sp : List Char) (hrec : ∀ i t, rec_call i t ≠ .error .fuel) :
    ∀ (fuel : Nat) (s : frame), s.in_.length < fuel →
      decode_loop rec_call ecb sp fuel s ≠ .error .fuel := by
  intro fuel
  induction fuel with
  | zero => intro s h; omega
  | succ n ih =>
    intro s h
    rw [decode_loop_succ]
    cases hin : s.in_ with
    | nil => simp
    | cons c in1 =>
      rw [hin] at h
      simp only [List.length_cons] at h
      show (match step rec_call ecb sp s c in1 with
        | .next s1 => decode_loop rec_call ecb sp n s1
        | .stop o => o) ≠ .error .fuel
      cases hst : step rec_call ecb sp s c in1 with
      | next s1 =>
        have hl := step_length hst
        exact ih s1 (by omega)
      | stop o => exact step_no_fuel_fault rec_call ecb sp s c in1 hrec o hst

theorem decode_levels_no_fuel_fault (ecb : event_cb) :
    ∀ (k : Nat) (sp : List Char) (ret : part), decode_levels k ecb sp ret ≠ .error .fuel := by
  intro k
  induction k with
  | zero => intro sp ret; simp [decode_levels]
  | succ k ih =>
    intro sp ret
    cases sp with
    | nil => simp [decode_levels]
    | cons c sp1 =>
      simp only [decode_levels]
      exact decode_loop_no_fuel_fault _ ecb _ ih _ _ (by simp [initial_frame])

theorem decode_recursive_terminates (sp : List Char) (ret : part) (depth : Nat)
    (ecb : event_cb) : decode_recursive sp ret depth ecb ≠ .error .fuel :=
  decode_levels_no_fuel_fault ecb _ sp ret

/-- C20. Read at `end`: on the input `--B\r\nK: V\r\n\r` the state
`s_header_value` reads `*in`, finds the CR of the blank line, increments `in`
to `end` and dereferences it again to look for the LF; the decoder reads the
byte at the index equal to the input length. -/
theorem read_at_end :
    decode_recursive ends_in_blank_line_cr Entry 0 no_callbacks = .error .read_past_end ∧
      decode ends_in_blank_line_cr no_callbacks = .error .read_past_end :=
  ⟨rfl, rfl⟩

/-- C11. Truncation after the header block: on an input that ends immediately
after the blank line of a header block the loop is left in state `s_part_data`
through the trailing `return`; the error flag stays clear and the default part
is returned as if the decode had succeeded. -/
theorem truncated_after_blank_line :
    decode_recursive ends_after_blank_line Entry 0 no_callbacks = .ok ⟨Entry, false, 13, []⟩ ∧
      decode ends_after_blank_line no_callbacks = .ok Entry :=
  ⟨rfl, rfl⟩

set_option maxRecDepth 8192 in
/-- C17. Headers of a single-part inner message: the nested message whose inner
message has the one part `K: V` / `hello` decodes without error to a content
part that carries the outer boundary and the outer header only; the recorded
pair `K: V` appears nowhere in the returned tree. -/
theorem inner_headers_overwritten :
    decode_recursive single_inner_input Entry 0 no_callbacks =
        .ok ⟨single_inner_tree, false, 97, []⟩ ∧
      decode single_inner_input no_callbacks = .ok single_inner_tree ∧
      ("K".toList, "V".toList) ∉ all_headers single_inner_tree :=
  ⟨rfl, rfl, by decide⟩

theorem serializations_leaves (b : List Char) (ps : List (prototype_type × List Char)) :
    serializations (ps.map (leaf b)) = parts_text b ps := by
  induction ps with
  | nil => rfl
  | cons p ps ih => simp [serializations, leaf_serialization, leaf, parts_text, ih]

theorem encode_flat_list (b : List Char) (p : prototype_type × List Char)
    (ps : List (prototype_type × List Char)) :
    (encode (.list [] [] ((p :: ps).map (leaf b)))).1 = flat_message b (p :: ps) ++ crlf := by
  obtain ⟨h1, h2, h3⟩ := encode_children_homogeneous b 0 ((p :: ps).map (leaf b))
    (by intro e he; simp [leaf] at he; rcases he with rfl | ⟨a, c, _, rfl⟩ <;> exact ⟨rfl, rfl⟩)
    ([], 0) [] false (Or.inl rfl)
  simp only [encode, encode_recursive, ne_eq, not_true_eq_false, if_false, write_prototype,
    h3, if_true, write_string, h1, h2, serializations_leaves]
  simp [flat_message]

/-- C19. Decode inverts encode on well-formed flat trees: for a list with empty
boundary and no headers whose two or more children are content parts with the
same well-formed boundary `b` and well-formed headers and content,
decoding the bytes written by `encode` succeeds and returns the list itself;
for a single child the result is the child as a content root, not a
one-element list. -/
theorem decode_inverts_encode (ecb : event_cb) (b : List Char)
    (p q : prototype_type × List Char) (ps : List (prototype_type × List Char))
    (hb : well_formed_boundary b) (hp : ∀ x ∈ p :: q :: ps, well_formed_part b x) :
    ((∃ n cl, decode_recursive (encode (.list [] [] ((p :: q :: ps).map (leaf b)))).1 Entry 0 ecb
        = .ok ⟨.list [] [] ((p :: q :: ps).map (leaf b)), false, n, cl⟩) ∧
      decode (encode (.list [] [] ((p :: q :: ps).map (leaf b)))).1 ecb =
        .ok (.list [] [] ((p :: q :: ps).map (leaf b)))) ∧
    decode (encode (.list [] [] [leaf b p])).1 ecb = .ok (leaf b p) := by
  have h2 := decode_flat ecb b p (q :: ps) crlf 0 hb hp (by decide)
  have h1 := decode_flat ecb b p [] crlf 0 hb (fun x hx => hp x (by simp at hx; simp [hx]))
    (by decide)
  rw [← encode_flat_list] at h1 h2
  refine ⟨⟨⟨_, _, h2⟩, decode_of_success _ _ _ _ _ h2⟩, ?_⟩
  exact decode_of_success _ _ _ _ _ h1

/-- C19 at the two leaves `hello` and `world` with boundary `--B`. -/
theorem decode_inverts_encode_witness :
    (well_formed_boundary "--B".toList ∧
      ∀ x ∈ [([("K".toList, "V".toList)], "hello".toList),
        ([("K2".toList, "V2".toList)], "world".toList)], well_formed_part "--B".toList x) ∧
    decode (encode two_part_tree).1 no_callbacks = .ok two_part_tree :=
  ⟨⟨by decide, by decide⟩,
    (decode_inverts_encode no_callbacks "--B".toList
      ([("K".toList, "V".toList)], "hello".toList) ([("K2".toList, "V2".toList)], "world".toList)
      [] (by decide) (by decide)).1.2⟩

theorem header_calls_events (f1 f2 f3 f4 : callback_func) (hs : prototype_type) :
    ∀ calls : List callback_call,
      header_calls ⟨some f1, some f2, some f3, some f4⟩ hs calls =
        calls ++ header_events f2 f3 hs := by
  induction hs with
  | nil => intro calls; simp [header_calls, header_events]
  | cons h hs ih =>
    intro calls
    simp only [header_calls, ih, invoke]
    simp [header_events]

theorem parts_calls_events (f1 f2 f3 f4 : callback_func)
    (ps : List (prototype_type × List Char)) :
    ∀ calls : List callback_call,
      parts_calls ⟨some f1, some f2, some f3, some f4⟩ ps calls =
        calls ++ ps.flatMap (part_events f2 f3 f4) := by
  induction ps with
  | nil => intro calls; simp [parts_calls]
  | cons p ps ih =>
    intro calls
    simp only [parts_calls, ih, invoke, header_calls_events]
    simp [part_events]

/-- C14. Streaming events mirror the tree: for a flat message of well-formed
parts decoded with all four hooks set, the recorded invocations are one
boundary event for the opening line and then, for each part in document order,
a header-field and a header-value event per header (with the recorded name and
value) followed by one leaf-content event with the content of the part; and the
returned tree is the same for every choice of callbacks, whatever they
return. -/
theorem streaming_events (f1 f2 f3 f4 : callback_func) (b : List Char)
    (p : prototype_type × List Char) (ps : List (prototype_type × List Char))
    (rest : List Char) (hb : well_formed_boundary b)
    (hp : ∀ x ∈ p :: ps, well_formed_part b x) :
    decode_recursive (flat_message b (p :: ps) ++ rest) Entry 0
        ⟨some f1, some f2, some f3, some f4⟩ =
      .ok ⟨flat_tree b (p :: ps), false, (flat_message b (p :: ps)).length,
        message_events f1 f2 f3 f4 b (p :: ps)⟩ ∧
    ∀ ecb : event_cb, decode (flat_message b (p :: ps) ++ rest) ecb =
      .ok (flat_tree b (p :: ps)) := by
  constructor
  · rw [decode_flat _ b p ps rest 0 hb hp (by decide), parts_calls_events]
    simp [invoke, message_events]
  · intro ecb
    exact decode_of_success _ _ _ _ _ (decode_flat ecb b p ps rest 0 hb hp (by decide))

/-- C14 at the two-part message with hooks that return the length of their
argument. -/
theorem streaming_events_witness :
    (well_formed_boundary "--B".toList ∧
      ∀ x ∈ [([("K".toList, "V".toList)], "hello".toList),
        ([("K2".toList, "V2".toList)], "world".toList)], well_formed_part "--B".toList x) ∧
    ∃ r, decode_recursive two_part_input Entry 0
        ⟨some (fun s => s.length), some (fun s => s.length), some (fun s => s.length),
          some (fun s => s.length)⟩ = .ok r ∧
      r.calls.map (fun c => (c.which, String.mk c.arg)) =
        [(hook.boundary, "--B"), (hook.header_field, "K"), (hook.header_value, "V"),
          (hook.part_data, "hello"), (hook.header_field, "K2"), (hook.header_value, "V2"),
          (hook.part_data, "world")] :=
  ⟨⟨by decide, by decide⟩, _,
    (streaming_events (fun s => s.length) (fun s => s.length) (fun s => s.length)
      (fun s => s.length) "--B".toList ([("K".toList, "V".toList)], "hello".toList)
      [([("K2".toList, "V2".toList)], "world".toList)] crlf (by decide) (by decide)).1,
    by decide⟩

theorem encode_undefined (b : List Char) (hs : prototype_type) (w : Bool) (d : Nat) :
    encode_recursive (.undefined b hs) w d = ([], 0) := by
  simp [encode_recursive]

theorem encode_children_append (d : Nat) (l2 : List part) :
    ∀ (l1 : List part) (o : List Char × Nat) (bd : List Char) (w : Bool),
      encode_children (l1 ++ l2) d o bd w =
        encode_children l2 d (encode_children l1 d o bd w).1
          (encode_children l1 d o bd w).2.1 (encode_children l1 d o bd w).2.2 := by
  intro l1
  induction l1 with
  | nil => intro o bd w; simp [encode_children]
  | cons e l1 ih =>
    intro o bd w
    simp only [List.cons_append, encode_children]
    exact ih _ _ _

theorem encode_children_singleton_boundary (d : Nat) (p : part) (o : List Char × Nat)
    (bd : List Char) (w : Bool) : (encode_children [p] d o bd w).2.1 = p.boundary := by
  simp only [encode_children]
  by_cases h1 : bd = []
  · simp [h1]
  · by_cases h2 : bd = p.boundary
    · simp [h1, h2]
    · simp [h1, h2]

theorem encode_children_undefined (d : Nat) (bd : List Char) (hs : prototype_type)
    (l : List part) (o : List Char × Nat) (w : Bool) :
    encode_children (.undefined bd hs :: l) d o bd w = encode_children l d o bd w := by
  simp only [encode_children, part.boundary, encode_undefined]
  by_cases h1 : bd = []
  · simp [h1]
  · simp [h1]

theorem encode_children_skip (d : Nat) (l1 l2 : List part) (p : part) (hs : prototype_type)
    (o : List Char × Nat) (bd : List Char) (w : Bool) :
    encode_children (l1 ++ p :: .undefined p.boundary hs :: l2) d o bd w =
      encode_children (l1 ++ p :: l2) d o bd w := by
  have e1 : l1 ++ p :: .undefined p.boundary hs :: l2 =
      (l1 ++ [p]) ++ (.undefined p.boundary hs :: l2) := by simp
  have e2 : l1 ++ p :: l2 = (l1 ++ [p]) ++ l2 := by simp
  rw [e1, e2, encode_children_append, encode_children_append d l2]
  have hb : (encode_children (l1 ++ [p]) d o bd w).2.1 = p.boundary := by
    rw [encode_children_append]
    exact encode_children_singleton_boundary _ _ _ _ _
  generalize encode_children (l1 ++ [p]) d o bd w = st at hb
  rw [hb]
  exact encode_children_undefined _ _ _ _ _ _

/-- C13 (as amended). Undefined parts: `encode_recursive` of an undefined part
writes nothing and returns 0 at every depth; as a child of a list, an undefined
part whose boundary field equals the boundary of the child before it, or that
stands first with the empty boundary, leaves the bytes and the count written
for the list unchanged. -/
theorem undefined_child_skipped (rb : List Char) (rp : prototype_type) (l1 l2 : List part)
    (p : part) (b : List Char) (hs : prototype_type) (w : Bool) (d : Nat) :
    encode_recursive (.undefined b hs) w d = ([], 0) ∧
    encode (.undefined b hs) = ([], 0) ∧
    encode (.list rb rp (l1 ++ p :: .undefined p.boundary hs :: l2)) =
      encode (.list rb rp (l1 ++ p :: l2)) ∧
    encode (.list rb rp (.undefined [] hs :: l2)) = encode (.list rb rp l2) := by
  refine ⟨encode_undefined b hs w d, encode_undefined b hs false 0, ?_, ?_⟩
  · simp only [encode, encode_recursive, encode_children_skip]
  · simp only [encode, encode_recursive, encode_children_undefined]

/-- C13 as stated fails: between two content children with boundary `--A` an
undefined child with the default empty boundary makes the list loop write the
delimiter `--A--` before it and suppress the delimiter at the end, so the
written bytes change when the undefined child is removed. -/
theorem undefined_child_switches_boundary :
    (encode (.list [] [] [.content "--A".toList [("K".toList, "1".toList)] "a".toList,
      .undefined [] [],
      .content "--A".toList [("K".toList, "2".toList)] "b".toList])).1 =
        "--A\r\nK: 1\r\n\r\na\r\n--A--\r\n--A\r\nK: 2\r\n\r\nb\r\n".toList ∧
    (encode (.list [] [] [.content "--A".toList [("K".toList, "1".toList)] "a".toList,
      .content "--A".toList [("K".toList, "2".toList)] "b".toList])).1 =
        "--A\r\nK: 1\r\n\r\na\r\n--A\r\nK: 2\r\n\r\nb\r\n--A--\r\n".toList ∧
    (encode (.list [] [] [.content "--A".toList [("K".toList, "1".toList)] "a".toList,
      .undefined [] [],
      .content "--A".toList [("K".toList, "2".toList)] "b".toList])).1 ≠
    (encode (.list [] [] [.content "--A".toList [("K".toList, "1".toList)] "a".toList,
      .content "--A".toList [("K".toList, "2".toList)] "b".toList])).1 := by
  decide

theorem parts_text_complete (b rest : List Char) :
    ∀ ps : List (prototype_type × List Char),
      parts_text b ps ++ b ++ crlf ++ rest = b ++ crlf ++ (complete_parts b ps ++ rest) := by
  intro ps
  induction ps with
  | nil => simp [parts_text, complete_parts]
  | cons p ps ih =>
    have e : parts_text b (p :: ps) ++ b ++ crlf ++ rest =
        b ++ crlf ++ header_lines p.1 ++ crlf ++ p.2 ++ crlf ++
          (parts_text b ps ++ b ++ crlf ++ rest) := by
      simp [parts_text, leaf_text]
    rw [e, ih]
    simp [complete_parts]

theorem scan_complete_parts (rec_call : List Char → part → outcome) (ecb : event_cb)
    (sp : List Char) (rest b : List Char) :
    ∀ (ps : List (prototype_type × List Char)), (∀ p ∈ ps, well_formed_part b p) →
      ∀ (ret : part) (key value : List Char) (calls : List callback_call),
      ret.type ≠ data_type.content_t →
      ∃ (ret1 : part) (key1 value1 : List Char) (calls1 : List callback_call),
        ret1.type ≠ data_type.content_t ∧
        run rec_call ecb sp ⟨complete_parts b ps ++ rest, .s_header_field, b, key, value,
          complete_parts b ps ++ rest, complete_parts b ps ++ rest, [], Entry, ret, calls⟩ =
        run rec_call ecb sp ⟨rest, .s_header_field, b, key1, value1, rest, rest, [], Entry,
          ret1, calls1⟩ := by
  intro ps
  induction ps with
  | nil =>
    intro _ ret key value calls hret
    exact ⟨ret, key, value, calls, hret, by simp [complete_parts]⟩
  | cons p ps ih =>
    intro hall ret key value calls hret
    obtain ⟨key1, value1, h⟩ := part_then_separator rec_call ecb sp
      (complete_parts b ps ++ rest) b [] [] ret p (hall p (by simp)) key value calls
    obtain ⟨r, hr, hrt⟩ : ∃ r, ret.list_push_back (leaf b p) = some r ∧
        r.type ≠ data_type.content_t := by
      cases ret with
      | content _ _ _ => exact absurd rfl hret
      | list _ _ _ => exact ⟨_, rfl, by simp [part.type]⟩
      | undefined _ _ => exact ⟨_, rfl, by simp [part.type]⟩
    obtain ⟨ret1, key2, value2, calls1, hret1, h2⟩ := ih (fun x hx => hall x (by simp [hx])) r
      key1 value1 (parts_calls ecb [p] calls) hrt
    refine ⟨ret1, key2, value2, calls1, hret1, ?_⟩
    simp only [complete_parts, List.append_assoc, hr, Entry] at h h2 ⊢
    rw [h, h2]

theorem decode_after_complete_parts (ecb : event_cb) (b rest : List Char)
    (ps : List (prototype_type × List Char)) (depth : Nat) (hb : well_formed_boundary b)
    (hps : ∀ p ∈ ps, well_formed_part b p) (hd : depth < max_recursive_depth) :
    ∃ (ret1 : part) (key1 value1 : List Char) (calls1 : List callback_call),
      decode_recursive (parts_text b ps ++ b ++ crlf ++ rest) Entry depth ecb =
        run (fun i t => decode_recursive i t (depth + 1) ecb) ecb
          (parts_text b ps ++ b ++ crlf ++ rest)
          ⟨rest, .s_header_field, b, key1, value1, rest, rest, [], Entry, ret1, calls1⟩ := by
  have hne : parts_text b ps ++ b ++ crlf ++ rest ≠ [] := by simp [crlf]
  rw [decode_recursive_eq _ _ _ _ hd hne]
  generalize hsp : parts_text b ps ++ b ++ crlf ++ rest = sp
  have e := parts_text_complete b rest ps
  rw [hsp] at e
  have h0 := scan_opening (fun i t => decode_recursive i t (depth + 1) ecb) ecb sp
    (complete_parts b ps ++ rest) b hb Entry
  rw [← e] at h0
  obtain ⟨ret1, key1, value1, calls1, _, h1⟩ := scan_complete_parts
    (fun i t => decode_recursive i t (depth + 1) ecb) ecb sp rest b ps hps Entry [] []
    (invoke ecb.boundary_ .boundary b []) (by simp [Entry, part.type])
  exact ⟨ret1, key1, value1, calls1, by rw [initial_frame, h0, h1]⟩

theorem window_miss_short (b p : List Char)
    (h : ('\r' :: '\n' :: p).take (b.length + 2) ≠ crlf ++ b) :
    ¬ (b ++ dashes = p.take (b.length + 2)) ∧
    ¬ (b = (p.take (b.length + 2)).take b.length) := by
  have hb : p.take b.length ≠ b := by
    intro hc
    apply h
    simp [crlf, List.take_succ_cons, hc]
  constructor
  · intro hc
    apply hb
    have := congrArg (List.take b.length) hc
    rw [List.take_take] at this
    simp at this
    exact this.symm
  · intro hc
    apply hb
    rw [List.take_take] at hc
    simp at hc
    exact hc.symm

theorem scan_value_raw (rec_call : List Char → part → outcome) (ecb : event_cb)
    (sp : List Char) (tl b key value : List Char) (proto : prototype_type) (tmp ret : part)
    (calls : List callback_call) :
    ∀ (w : List Char), (∀ c ∈ w, c ≠ '\r') →
      run rec_call ecb sp ⟨w ++ '\r' :: tl, .s_header_value, b, key, value,
        w ++ '\r' :: tl, w ++ '\r' :: tl, proto, tmp, ret, calls⟩ =
      run rec_call ecb sp ⟨'\r' :: tl, .s_header_value, b, key, value,
        strip_spaces w ++ '\r' :: tl, '\r' :: tl, proto, tmp, ret, calls⟩ := by
  intro w
  induction w with
  | nil => intro _; rfl
  | cons x w ih =>
    intro h
    have hx : x ≠ '\r' := h x (by simp)
    rw [List.cons_append, run_cons _ _ _ _ x (w ++ '\r' :: tl) rfl]
    by_cases hs : x = ' '
    · subst hs
      simp only [step, header_value_body, List.length_cons, and_self, if_true]
      rw [ih (fun c hc => h c (by simp [hc]))]
      simp [strip_spaces]
    · simp only [step, header_value_body, hs, and_false, if_false, hx, ne_eq,
        not_false_eq_true, if_true]
      have := scan_value_tail rec_call ecb sp tl b key value proto tmp ret calls w
        (fun c hc => h c (by simp [hc])) [x] (by simp)
      simpa [strip_spaces, hs] using this

theorem scan_raw_header_line (rec_call : List Char → part → outcome) (ecb : event_cb)
    (sp : List Char) (tl b key value : List Char) (proto : prototype_type) (tmp ret : part)
    (calls : List callback_call) (r : List Char × List Char) (hn : well_formed_name r.1)
    (hv : ∀ c ∈ r.2, c ≠ '\r') :
    run rec_call ecb sp ⟨raw_header_line r ++ tl, .s_header_field, b, key, value,
        raw_header_line r ++ tl, raw_header_line r ++ tl, proto, tmp, ret, calls⟩ =
      run rec_call ecb sp ⟨'\r' :: '\n' :: tl, .s_header_value, b, r.1, value,
        strip_spaces r.2 ++ '\r' :: '\n' :: tl, '\r' :: '\n' :: tl, proto, tmp, ret,
        invoke ecb.header_field_ .header_field r.1 calls⟩ := by
  have h1 := scan_header_name rec_call ecb sp (r.2 ++ '\r' :: '\n' :: tl) b key value
    proto tmp ret calls r.1 hn []
  have h2 := scan_value_raw rec_call ecb sp ('\n' :: tl) b r.1 value proto tmp ret
    (invoke ecb.header_field_ .header_field r.1 calls) r.2 hv
  simp only [raw_header_line, crlf, List.append_assoc, List.cons_append, List.nil_append]
    at h1 h2 ⊢
  rw [h1, h2]

theorem raw_header_line_head (r : List Char × List Char) (hn : well_formed_name r.1)
    (rest : List Char) : ∃ x tl, raw_header_line r ++ rest = x :: tl ∧ x ≠ '\r' := by
  unfold raw_header_line
  cases hh : r.1 with
  | nil => exact ⟨':', _, by simp; rfl, by decide⟩
  | cons x n =>
    refine ⟨x, _, by simp; rfl, ?_⟩
    exact (hn x (by simp [hh])).2.1

theorem scan_raw_headers (rec_call : List Char → part → outcome) (ecb : event_cb)
    (sp : List Char) (rest b : List Char) (tmp ret : part) :
    ∀ (rs : List (List Char × List Char)), well_formed_raw_headers rs →
      ∀ (key value : List Char) (proto : prototype_type) (calls : List callback_call),
      ∃ key1 value1,
      run rec_call ecb sp ⟨raw_header_lines rs ++ crlf ++ rest, .s_header_field, b, key, value,
        raw_header_lines rs ++ crlf ++ rest, raw_header_lines rs ++ crlf ++ rest, proto, tmp,
        ret, calls⟩ =
      run rec_call ecb sp ⟨rest, .s_part_data, b, key1, value1, rest, rest,
        proto ++ recorded_headers rs, tmp, ret,
        header_calls ecb (recorded_headers rs) calls⟩ := by
  intro rs
  induction rs with
  | nil => intro h; exact absurd rfl h.1
  | cons r rs ih =>
    intro hwf key value proto calls
    obtain ⟨_, hall, hlast⟩ := hwf
    obtain ⟨hn, hv⟩ := hall r (by simp)
    cases rs with
    | nil =>
      refine ⟨r.1, strip_spaces r.2, ?_⟩
      have hflat : ¬ nested_header (r.1, strip_spaces r.2) := hlast r (by simp)
      have h1 := scan_raw_header_line rec_call ecb sp ('\r' :: '\n' :: rest) b key value proto
        tmp ret calls r hn hv
      have h2 := value_end_data rec_call ecb sp rest b r.1 value (strip_spaces r.2) hflat proto
        tmp ret (invoke ecb.header_field_ .header_field r.1 calls)
      simp only [raw_header_lines, crlf, List.append_assoc, List.cons_append, List.nil_append,
        List.append_nil, header_calls, recorded_headers, List.map] at h1 ⊢
      rw [h1, h2]
    | cons r' rs' =>
      have hwf' : well_formed_raw_headers (r' :: rs') :=
        ⟨by simp, fun x hx => hall x (by simp [hx]), fun x hx => hlast x (by simpa using hx)⟩
      obtain ⟨x, tl, hx, hxr⟩ := raw_header_line_head r' (hall r' (by simp)).1
        (raw_header_lines rs' ++ crlf ++ rest)
      have h1 := scan_raw_header_line rec_call ecb sp
        (raw_header_lines (r' :: rs') ++ crlf ++ rest) b key value proto tmp ret calls r hn hv
      have hx' : raw_header_lines (r' :: rs') ++ crlf ++ rest = x :: tl := by
        simpa [raw_header_lines] using hx
      obtain ⟨key1, value1, h3⟩ := ih hwf' r.1 (strip_spaces r.2)
        (proto ++ [(r.1, strip_spaces r.2)])
        (invoke ecb.header_value_ .header_value (strip_spaces r.2)
          (invoke ecb.header_field_ .header_field r.1 calls))
      refine ⟨key1, value1, ?_⟩
      have h2 := value_end_more rec_call ecb sp tl b r.1 value (strip_spaces r.2) x hxr proto
        tmp ret (invoke ecb.header_field_ .header_field r.1 calls)
      rw [← hx'] at h2
      have e1 : raw_header_lines (r :: r' :: rs') ++ crlf ++ rest =
          raw_header_line r ++ (raw_header_lines (r' :: rs') ++ crlf ++ rest) := by
        simp [raw_header_lines]
      rw [e1, h1, h2, h3]
      simp [header_calls, recorded_headers]

/-- C16 (as amended). All leading spaces of a header value are skipped: a
one-part message whose header lines are `name:` ++ `w` ++ CRLF, with `w` free
of CR, decodes to a content part whose headers are the names paired with `w`
stripped of every leading space; in particular the line `K:  V` with two spaces
records the value `V`. -/
theorem leading_spaces_skipped (ecb : event_cb) (b : List Char)
    (rs : List (List Char × List Char)) (c rest : List Char)
    (hb : well_formed_boundary b) (hrs : well_formed_raw_headers rs)
    (hc : no_delimiter b c = true) :
    (∃ n cl, decode_recursive
        (b ++ crlf ++ raw_header_lines rs ++ crlf ++ c ++ crlf ++ b ++ dashes ++ rest)
        Entry 0 ecb = .ok ⟨.content b (recorded_headers rs) c, false, n, cl⟩) ∧
    decode "--B\r\nK:  V\r\n\r\nhello\r\n--B--".toList no_callbacks =
      .ok (.content "--B".toList [("K".toList, "V".toList)] "hello".toList) := by
  refine ⟨?_, rfl⟩
  rw [decode_recursive_eq _ _ _ _ (by decide) (by simp [crlf])]
  generalize hsp : b ++ crlf ++ raw_header_lines rs ++ crlf ++ c ++ crlf ++ b ++ dashes ++ rest
    = sp
  have h0 := scan_opening (fun i t => decode_recursive i t (0 + 1) ecb) ecb sp
    (raw_header_lines rs ++ crlf ++ (c ++ crlf ++ b ++ dashes ++ rest)) b hb Entry
  have e : b ++ crlf ++ (raw_header_lines rs ++ crlf ++ (c ++ crlf ++ b ++ dashes ++ rest))
      = sp := by rw [← hsp]; simp
  rw [e] at h0
  obtain ⟨key1, value1, h1⟩ := scan_raw_headers (fun i t => decode_recursive i t (0 + 1) ecb)
    ecb sp (c ++ crlf ++ b ++ dashes ++ rest) b Entry Entry rs hrs [] [] []
    (invoke ecb.boundary_ .boundary b [])
  have h2 := scan_part_data (fun i t => decode_recursive i t (0 + 1) ecb) ecb sp
    (dashes ++ rest) b key1 value1 ([] ++ recorded_headers rs) Entry Entry
    (header_calls ecb (recorded_headers rs) (invoke ecb.boundary_ .boundary b [])) c hc []
  have hne : ([] : prototype_type) ++ recorded_headers rs ≠ [] := by
    have := hrs.1
    cases rs with
    | nil => exact absurd rfl this
    | cons r rs => simp [recorded_headers]
  have hcl := close_part_leaf ecb ('\r' :: '\n' :: (b ++ '-' :: '-' :: rest)) b key1 value1 c
    ('\r' :: '\n' :: (b ++ '-' :: '-' :: rest)) [] .s_part_data
    ([] ++ recorded_headers rs) [] Entry
    (header_calls ecb (recorded_headers rs) (invoke ecb.boundary_ .boundary b [])) hne
  have h3 := final_delimiter (fun i t => decode_recursive i t (0 + 1) ecb) ecb sp rest b
    key1 value1 _ _ ([] ++ recorded_headers rs) (.undefined [] []) Entry
    (header_calls ecb (recorded_headers rs) (invoke ecb.boundary_ .boundary b [])) _ _ hcl
  simp only [crlf, dashes, Entry, List.append_assoc, List.cons_append, List.nil_append]
    at h0 h1 h2 h3 ⊢
  rw [initial_frame]
  simp only [Entry]
  rw [h0, h1, h2, h3]
  exact ⟨sp.length - rest.length, invoke ecb.part_data_ .part_data c
    (header_calls ecb (recorded_headers rs) (invoke ecb.boundary_ .boundary b [])),
    by simp [part.type]⟩

/-- C16 at the header line `K:  V` with two spaces. -/
theorem leading_spaces_skipped_witness :
    (well_formed_boundary "--B".toList ∧ well_formed_raw_headers [("K".toList, "  V".toList)] ∧
      no_delimiter "--B".toList "hello".toList = true) ∧
    ∃ n cl, decode_recursive "--B\r\nK:  V\r\n\r\nhello\r\n--B--".toList Entry 0 no_callbacks =
      .ok ⟨.content "--B".toList [("K".toList, "V".toList)] "hello".toList, false, n, cl⟩ :=
  ⟨⟨by decide, by decide, by decide⟩,
    (leading_spaces_skipped no_callbacks "--B".toList [("K".toList, "  V".toList)]
      "hello".toList [] (by decide) (by decide) (by decide)).1⟩

/-- C16 as stated fails: the line `K:  V` with two spaces records the value `V`,
not the value ` V` that keeps one of them. -/
theorem one_space_kept_fails :
    decode "--B\r\nK:  V\r\n\r\nhello\r\n--B--".toList no_callbacks =
        .ok (.content "--B".toList [("K".toList, "V".toList)] "hello".toList) ∧
      "V".toList ≠ " V".toList :=
  ⟨rfl, by decide⟩

theorem slice_tail (cb ce t : List Char) : slice (cb ++ t) (ce ++ t) = slice cb ce := by
  unfold slice
  simp only [List.length_append]
  rw [show cb.length + t.length - (ce.length + t.length) = cb.length - ce.length by omega]
  exact List.take_append_of_le_length (by omega)

theorem close_part_tail (ecb : event_cb) (t : List Char) (s : frame) :
    close_part ecb (with_tail t s) = close_part ecb s := by
  simp only [close_part, with_tail, slice_tail]

theorem step_tail_field (rec_call : List Char → part → outcome) (ecb : event_cb)
    (A t : List Char) (s : frame) (c : Char) (a1 : List Char)
    (hs : s.state = .s_header_field) :
    step rec_call ecb (A ++ t) (with_tail t s) c (a1 ++ t) =
      lift_tail t (step rec_call ecb A s c a1) := by
  obtain ⟨in_, st, bd, key, value, cb, ce, proto, tmp, ret, calls⟩ := s
  simp only at hs
  subst hs
  simp only [step, with_tail, header_field_body, fail, slice_tail]
  split_ifs
  all_goals (simp [lift_tail, with_tail]; try omega)

theorem step_tail_boundary (rec_call : List Char → part → outcome) (ecb : event_cb)
    (A t : List Char) (s : frame) (c : Char) (a1 : List Char)
    (hs : s.state = .s_start_boundary) (hb : 1 ≤ a1.length) :
    step rec_call ecb (A ++ t) (with_tail t s) c (a1 ++ t) =
      lift_tail t (step rec_call ecb A s c a1) := by
  obtain ⟨in_, st, bd, key, value, cb, ce, proto, tmp, ret, calls⟩ := s
  simp only at hs
  subst hs
  obtain ⟨c1, a2, rfl⟩ := List.exists_cons_of_length_pos (show 0 < a1.length by omega)
  simp only [step, with_tail, start_boundary_body, fail, List.cons_append]
  split_ifs <;> simp [lift_tail, with_tail]

theorem step_tail_start (rec_call : List Char → part → outcome) (ecb : event_cb)
    (A t : List Char) (s : frame) (c : Char) (a1 : List Char)
    (hs : s.state = .s_start) (hb : 2 ≤ a1.length) :
    step rec_call ecb (A ++ t) (with_tail t s) c (a1 ++ t) =
      lift_tail t (step rec_call ecb A s c a1) := by
  obtain ⟨in_, st, bd, key, value, cb, ce, proto, tmp, ret, calls⟩ := s
  simp only at hs
  subst hs
  obtain ⟨c1, a2, rfl⟩ := List.exists_cons_of_length_pos (show 0 < a1.length by omega)
  simp only [List.length_cons] at hb
  obtain ⟨c2, a3, rfl⟩ := List.exists_cons_of_length_pos (show 0 < a2.length by omega)
  simp only [step, with_tail, start_body, start_boundary_body, fail, List.cons_append]
  split_ifs <;> simp [lift_tail, with_tail] <;> omega

theorem step_tail_data (rec_call : List Char → part → outcome) (ecb : event_cb)
    (A t : List Char) (s : frame) (c : Char) (a1 : List Char)
    (hs : s.state = .s_part_data) (hb : s.boundary.length + 3 ≤ a1.length) :
    step rec_call ecb (A ++ t) (with_tail t s) c (a1 ++ t) =
      lift_tail t (step rec_call ecb A s c a1) := by
  obtain ⟨in_, st, bd, key, value, cb, ce, proto, tmp, ret, calls⟩ := s
  simp only at hs hb
  subst hs
  obtain ⟨c1, p, rfl⟩ := List.exists_cons_of_length_pos (show 0 < a1.length by omega)
  simp only [List.length_cons] at hb
  have hcl := close_part_tail ecb t ⟨in_, .s_part_data, bd, key, value, cb, ce, proto, tmp, ret, calls⟩
  simp only [with_tail] at hcl
  have h1 : ¬ (p ++ t).length < bd.length + 2 := by simp; omega
  have h2 : ¬ p.length < bd.length + 2 := by omega
  have h3 : (p ++ t).take (bd.length + 2) = p.take (bd.length + 2) :=
    List.take_append_of_le_length (by omega)
  have h4 : (p ++ t).drop (bd.length + 2) = p.drop (bd.length + 2) ++ t :=
    List.drop_append_of_le_length (by omega)
  simp only [step, with_tail, part_data_body, fail, List.cons_append, hcl, h1, h2, h3, h4,
    if_false]
  repeat' split
  all_goals simp [lift_tail, with_tail] <;> omega

theorem step_tail_value (rec_call : List Char → part → outcome) (ecb : event_cb)
    (A t : List Char) (s : frame) (c : Char) (a1 : List Char)
    (hs : s.state = .s_header_value) (hb : 3 ≤ a1.length)
    (hplain : ¬ makes_nested_call s c a1) :
    step rec_call ecb (A ++ t) (with_tail t s) c (a1 ++ t) =
      lift_tail t (step rec_call ecb A s c a1) := by
  obtain ⟨in_, st, bd, key, value, cb, ce, proto, tmp, ret, calls⟩ := s
  simp only at hs hb
  subst hs
  have h1 : ((cb ++ t).length = (a1 ++ t).length + 1) = (cb.length = a1.length + 1) := by
    simp only [List.length_append, eq_iff_iff]; omega
  simp only [makes_nested_call, true_and] at hplain
  simp only [step, with_tail, header_value_body, h1, slice_tail]
  by_cases hsp : cb.length = a1.length + 1 ∧ c = ' '
  · simp only [hsp, and_self, if_true, lift_tail, with_tail]
  simp only [hsp, if_false]
  by_cases hc : c = '\r'
  swap
  · simp only [ne_eq, hc, not_false_eq_true, if_true, lift_tail, with_tail]
  subst hc
  obtain ⟨c1, a2, rfl⟩ := List.exists_cons_of_length_pos (show 0 < a1.length by omega)
  simp only [List.length_cons] at hb
  obtain ⟨c2, a3, rfl⟩ := List.exists_cons_of_length_pos (show 0 < a2.length by omega)
  simp only [List.length_cons] at hb
  obtain ⟨c3, a4, rfl⟩ := List.exists_cons_of_length_pos (show 0 < a3.length by omega)
  simp only [ne_eq, not_true_eq_false, if_false, List.cons_append]
  by_cases hc1 : c1 = '\n'
  swap
  · simp [hc1, fail, lift_tail]; omega
  subst hc1
  by_cases hc2 : c2 = '\r'
  swap
  · simp [hc2, lift_tail, with_tail]
  subst hc2
  by_cases hc3 : c3 = '\n'
  swap
  · simp [hc3, fail, lift_tail]; omega
  subst hc3
  have hk : ¬ (key = content_type_name ∧ regex_match_multipart (slice cb ce) = true) := by
    intro hk
    exact hplain ⟨rfl, ⟨a4, rfl⟩, hk⟩
  simp [hk, lift_tail, with_tail]

theorem step_tail_plain (rec_call : List Char → part → outcome) (ecb : event_cb)
    (A t : List Char) (s : frame) (c : Char) (a1 : List Char)
    (hb : needed s ≤ a1.length + 1) (hplain : ¬ makes_nested_call s c a1) :
    step rec_call ecb (A ++ t) (with_tail t s) c (a1 ++ t) =
      lift_tail t (step rec_call ecb A s c a1) := by
  cases hs : s.state with
  | s_start =>
    simp only [needed, hs] at hb
    exact step_tail_start rec_call ecb A t s c a1 hs (by omega)
  | s_start_boundary =>
    simp only [needed, hs] at hb
    exact step_tail_boundary rec_call ecb A t s c a1 hs (by omega)
  | s_header_field => exact step_tail_field rec_call ecb A t s c a1 hs
  | s_header_value =>
    simp only [needed, hs] at hb
    exact step_tail_value rec_call ecb A t s c a1 hs (by omega) hplain
  | s_part_data =>
    simp only [needed, hs] at hb
    exact step_tail_data rec_call ecb A t s c a1 hs (by omega)

theorem step_nested_call (rec_call : List Char → part → outcome) (ecb : event_cb)
    (sp : List Char) (s : frame) (in3 : List Char) (hs : s.state = .s_header_value)
    (hk : s.key = content_type_name)
    (hr : regex_match_multipart (slice s.cbegin s.cend) = true) :
    step rec_call ecb sp s '\r' ('\n' :: '\r' :: '\n' :: in3) =
      match rec_call in3 s.tmp with
      | .error f => .stop (.error f)
      | .ok q =>
        if q.err then
          .stop (.ok ⟨s.ret, true, sp.length - in3.length,
            invoke ecb.header_value_ .header_value (slice s.cbegin s.cend) s.calls ++ q.calls⟩)
        else
          .next { s with value := slice s.cbegin s.cend,
                         prototype := s.prototype ++ [(s.key, slice s.cbegin s.cend)],
                         in_ := in3.drop q.pos, tmp := q.ret, cbegin := in3.drop q.pos,
                         cend := in3.drop q.pos,
                         calls := invoke ecb.header_value_ .header_value
                           (slice s.cbegin s.cend) s.calls ++ q.calls,
                         state := .s_part_data } := by
  obtain ⟨in_, st, bd, key, value, cb, ce, proto, tmp, ret, calls⟩ := s
  simp only at hs hk hr
  subst hs
  cases hq : rec_call in3 tmp <;> simp [step, header_value_body, hk, hr, hq]

theorem step_needed (rec_call : List Char → part → outcome) (ecb : event_cb)
    (sp : List Char) (s s1 : frame) (c : Char) (in1 : List Char)
    (h : step rec_call ecb sp s c in1 = .next s1) : needed s ≤ needed s1 := by
  unfold step at h
  split at h
  · rename_i heq
    have h4 : needed s = 4 := by simp [needed, heq]
    rw [h4]
    cases hs1 : s1.state <;> simp [needed, hs1]
  · rename_i heq
    have h4 : needed s = 4 := by simp [needed, heq]
    rw [h4]
    cases hs1 : s1.state <;> simp [needed, hs1]
  · rename_i heq
    simp only [header_field_body] at h
    repeat' split at h
    all_goals first
      | (simp [fail] at h <;> fail)
      | (injection h with h; subst h; simp [needed, heq])
  · rename_i heq
    simp only [header_value_body] at h
    repeat' split at h
    all_goals first
      | (simp [fail] at h <;> fail)
      | (injection h with h; subst h; simp [needed, heq])
  · rename_i heq
    simp only [part_data_body] at h
    repeat' split at h
    all_goals first
      | (simp [fail] at h <;> fail)
      | (injection h with h; subst h; simp [needed, heq])

theorem step_stop_ok (rec_call : List Char → part → outcome) (ecb : event_cb)
    (sp : List Char) (s : frame) (c : Char) (in1 : List Char) (r : decoded)
    (h : step rec_call ecb sp s c in1 = .stop (.ok r)) (herr : r.err = false) :
    s.state = .s_part_data ∧ c = '\r' ∧ ∃ p, in1 = '\n' :: p ∧
      s.boundary.length + 2 ≤ p.length ∧
      p.take (s.boundary.length + 2) = s.boundary ++ dashes ∧
      r.pos = sp.length - (p.length - (s.boundary.length + 2)) ∧
      (r.ret.boundary = s.boundary ∨
        ∃ rb rp l e, r.ret = .list rb rp (l ++ [e]) ∧ e.boundary = s.boundary) := by
  unfold step at h
  split at h
  · simp only [start_body, start_boundary_body] at h
    repeat' split at h
    all_goals first
      | (simp only [fail, step_result.stop.injEq, Except.ok.injEq] at h; rw [← h] at herr; exact Bool.noConfusion herr)
      | (simp at h <;> fail)
  · simp only [start_boundary_body] at h
    repeat' split at h
    all_goals first
      | (simp only [fail, step_result.stop.injEq, Except.ok.injEq] at h; rw [← h] at herr; exact Bool.noConfusion herr)
      | (simp at h <;> fail)
  · simp only [header_field_body] at h
    repeat' split at h
    all_goals first
      | (simp only [fail, step_result.stop.injEq, Except.ok.injEq] at h; rw [← h] at herr; exact Bool.noConfusion herr)
      | (simp at h <;> fail)
  · simp only [header_value_body] at h
    repeat' split at h
    all_goals first
      | (simp only [fail, step_result.stop.injEq, Except.ok.injEq] at h; rw [← h] at herr; exact Bool.noConfusion herr)
      | (simp at h <;> fail)
  · rename_i heq
    simp only [part_data_body] at h
    repeat' split at h
    all_goals first
      | (simp only [fail, step_result.stop.injEq, Except.ok.injEq] at h; rw [← h] at herr; exact Bool.noConfusion herr)
      | (simp at h <;> fail)
      | (rename_i hc _ c1 p hc1 hlen hwin _ tmp cl hcl _ ret hpush
         injection h with h; injection h with h; subst h
         have ht := close_part_boundary _ _ _ _ hcl
         have hc1 : c1 = '\n' := by simpa using hc1
         subst hc1
         refine ⟨heq, hc, p, rfl, by omega, hwin.symm, by simp, ?_⟩
         split at hpush
         · rename_i hty
           cases hret : s.ret with
           | content b pr d => rw [hret] at hpush; simp [part.list_push_back] at hpush
           | undefined b pr =>
             rw [hret] at hpush
             simp only [part.list_push_back, Option.some.injEq] at hpush
             exact Or.inr ⟨_, _, [], _, by rw [← hpush]; rfl, ht⟩
           | list b pr l =>
             rw [hret] at hpush
             simp only [part.list_push_back, Option.some.injEq] at hpush
             exact Or.inr ⟨_, _, l, _, hpush.symm, ht⟩
         · injection hpush with hpush; subst hpush; exact Or.inl ht)

theorem run_needed (rec_call : List Char → part → outcome) (ecb : event_cb)
    (sp : List Char) : ∀ (m : Nat) (s : frame), s.in_.length ≤ m →
    s.in_.length ≤ sp.length → ∀ r : decoded, run rec_call ecb sp s = .ok r →
    r.err = false → r.pos < sp.length → sp.length - r.pos + needed s ≤ s.in_.length := by
  intro m
  induction m with
  | zero =>
    intro s hm _ r h _ hpos
    have hin : s.in_ = [] := List.length_eq_zero.mp (by omega)
    rw [run_nil _ _ _ _ hin] at h
    injection h with h
    subst h
    simp at hpos
  | succ m ih =>
    intro s hm hsp r h herr hpos
    cases hin : s.in_ with
    | nil =>
      rw [run_nil _ _ _ _ hin] at h
      injection h with h
      subst h
      simp at hpos
    | cons c in1 =>
      rw [run_cons _ _ _ _ c in1 hin] at h
      rw [hin] at hm hsp
      simp only [List.length_cons] at hm hsp ⊢
      cases hst : step rec_call ecb sp s c in1 with
      | next s1 =>
        simp only [hst] at h
        have hl := step_length hst
        have hn := step_needed _ _ _ _ _ _ _ hst
        have := ih s1 (by omega) (by omega) r h herr hpos
        omega
      | stop o =>
        simp only [hst] at h
        subst h
        obtain ⟨hs, _, p, rfl, hlen, _, hp, _⟩ := step_stop_ok _ _ _ _ _ _ _ hst herr
        simp only [needed, hs, List.length_cons] at hsp ⊢
        omega

theorem start_boundary_body_suffix {ecb : event_cb} {sp : List Char} {s s1 : frame} {c : Char}
    {in1 : List Char} (h : start_boundary_body ecb sp s c in1 = .next s1) :
    s1.in_ <:+ in1 := by
  unfold start_boundary_body at h
  split at h
  · split at h
    · simp [fail] at h
    · split at h <;> (injection h with h; subst h; exact List.suffix_cons _ _)
  · injection h with h; subst h; exact List.suffix_refl _

theorem step_suffix {rec_call : List Char → part → outcome} {ecb : event_cb} {sp : List Char}
    {s s1 : frame} {c : Char} {in1 : List Char}
    (h : step rec_call ecb sp s c in1 = .next s1) : s1.in_ <:+ in1 := by
  unfold step at h
  split at h
  · unfold start_body at h
    split at h
    · simp [fail] at h
    · split at h
      · simp [fail] at h
      · split at h
        · simp [fail] at h
        · exact (start_boundary_body_suffix h).trans (List.suffix_cons _ _)
  · exact start_boundary_body_suffix h
  · unfold header_field_body at h
    split at h
    · simp [fail] at h
    · split at h <;> (injection h with h; subst h; exact List.suffix_refl _)
  · simp only [header_value_body] at h
    repeat' split at h
    all_goals first
      | (simp [fail] at h; done)
      | (injection h with h; subst h
         first
           | exact List.suffix_refl _
           | exact List.suffix_cons _ _
           | exact (List.suffix_cons _ _).trans ((List.suffix_cons _ _).trans (List.suffix_cons _ _))
           | exact (List.drop_suffix _ _).trans ((List.suffix_cons _ _).trans
               ((List.suffix_cons _ _).trans (List.suffix_cons _ _))))
  · simp only [part_data_body] at h
    repeat' split at h
    all_goals first
      | (simp [fail] at h; done)
      | (injection h with h; subst h
         first
           | exact List.suffix_refl _
           | exact List.suffix_cons _ _
           | exact (List.drop_suffix _ _).trans (List.suffix_cons _ _))

theorem run_final_delimiter (rec_call : List Char → part → outcome) (ecb : event_cb)
    (sp : List Char) : ∀ (m : Nat) (s : frame), s.in_.length ≤ m →
    s.in_ <:+ sp → ∀ r : decoded, run rec_call ecb sp s = .ok r →
    r.err = false → r.pos < sp.length →
    ∃ a b, sp.take r.pos = a ++ crlf ++ b ++ dashes ∧
      (r.ret.boundary = b ∨ ∃ rb rp l e, r.ret = .list rb rp (l ++ [e]) ∧ e.boundary = b) := by
  intro m
  induction m with
  | zero =>
    intro s hm _ r h _ hpos
    have hin : s.in_ = [] := List.length_eq_zero.mp (by omega)
    rw [run_nil _ _ _ _ hin] at h
    injection h with h
    subst h
    simp at hpos
  | succ m ih =>
    intro s hm hsp r h herr hpos
    cases hin : s.in_ with
    | nil =>
      rw [run_nil _ _ _ _ hin] at h
      injection h with h
      subst h
      simp at hpos
    | cons c in1 =>
      rw [run_cons _ _ _ _ c in1 hin] at h
      rw [hin] at hm hsp
      simp only [List.length_cons] at hm
      cases hst : step rec_call ecb sp s c in1 with
      | next s1 =>
        simp only [hst] at h
        have hl := step_length hst
        exact ih s1 (by omega)
          ((step_suffix hst).trans ((List.suffix_cons _ _).trans hsp)) r h herr hpos
      | stop o =>
        simp only [hst] at h
        subst h
        obtain ⟨hs, hc, p, rfl, hlen, hwin, hp, hret⟩ := step_stop_ok _ _ _ _ _ _ _ hst herr
        subst hc
        obtain ⟨pre, hpre⟩ := hsp
        refine ⟨pre, s.boundary, ?_, hret⟩
        have hp2 : p = (s.boundary ++ dashes) ++ p.drop (s.boundary.length + 2) := by
          rw [← hwin]; exact (List.take_append_drop _ _).symm
        have hsp2 : sp = (pre ++ crlf ++ s.boundary ++ dashes) ++
            p.drop (s.boundary.length + 2) := by
          rw [← hpre]
          nth_rewrite 1 [hp2]
          simp [crlf]
        have hlen2 : (pre ++ crlf ++ s.boundary ++ dashes).length = r.pos := by
          rw [hp]
          have := congrArg List.length hsp2
          simp only [List.length_append, List.length_drop] at this ⊢
          omega
        nth_rewrite 1 [hsp2]
        exact List.take_left' hlen2

theorem run_two_tails (rec_call : List Char → part → outcome) (ecb : event_cb)
    (hrec : ∀ (i : List Char) (t : part) (q : decoded), rec_call i t = .ok q →
      q.err = false → q.pos < i.length → ∀ S, rec_call (i.take q.pos ++ S) t = .ok q)
    (A X S : List Char) (hX : X ≠ []) : ∀ (m : Nat) (s : frame), s.in_.length ≤ m →
    s.in_.length ≤ A.length → ∀ r : decoded,
    run rec_call ecb (A ++ X) (with_tail X s) = .ok r → r.err = false → r.pos = A.length →
    run rec_call ecb (A ++ S) (with_tail S s) = .ok r := by
  have hXl : 0 < X.length := List.length_pos.mpr hX
  intro m
  induction m with
  | zero =>
    intro s hm hA r h herr hpos
    have hn := run_needed rec_call ecb (A ++ X) _ (with_tail X s) (Nat.le_refl _)
      (by simp only [with_tail, List.length_append]; omega) r h herr
      (by simp only [List.length_append]; omega)
    have h4 : 4 ≤ needed (with_tail X s) := by
      unfold needed; split <;> omega
    have hlen : (with_tail X s).in_.length = s.in_.length + X.length := by
      simp only [with_tail, List.length_append]
    rw [hlen] at hn
    simp only [List.length_append] at hn
    omega
  | succ m ih =>
    intro s hm hA r h herr hpos
    have hn := run_needed rec_call ecb (A ++ X) _ (with_tail X s) (Nat.le_refl _)
      (by simp only [with_tail, List.length_append]; omega) r h herr
      (by simp only [List.length_append]; omega)
    have hnd : needed (with_tail X s) = needed s := rfl
    have h4 : 4 ≤ needed s := by
      unfold needed; split <;> omega
    rw [hnd] at hn
    have hlen : (with_tail X s).in_.length = s.in_.length + X.length := by
      simp only [with_tail, List.length_append]
    rw [hlen] at hn
    simp only [List.length_append] at hn
    have hns : needed s ≤ s.in_.length := by omega
    cases hin : s.in_ with
    | nil => rw [hin] at hns; simp at hns; omega
    | cons c a1 =>
      rw [hin] at hns hm hA
      simp only [List.length_cons] at hns hm hA
      have hinX : (with_tail X s).in_ = c :: (a1 ++ X) := by simp [with_tail, hin]
      have hinS : (with_tail S s).in_ = c :: (a1 ++ S) := by simp [with_tail, hin]
      rw [run_cons _ _ _ _ c _ hinX] at h
      rw [run_cons _ _ _ _ c _ hinS]
      by_cases hcall : makes_nested_call s c a1
      · obtain ⟨hs, hc, ⟨a3, ha3⟩, hk, hre⟩ := hcall
        subst hc
        subst ha3
        simp only [List.length_cons] at hm hA hns
        have hsX : (with_tail X s).state = .s_header_value := hs
        have hsS : (with_tail S s).state = .s_header_value := hs
        have hkX : (with_tail X s).key = content_type_name := hk
        have hkS : (with_tail S s).key = content_type_name := hk
        have hreX : regex_match_multipart
            (slice (with_tail X s).cbegin (with_tail X s).cend) = true := by
          simp only [with_tail, slice_tail]; exact hre
        have hreS : regex_match_multipart
            (slice (with_tail S s).cbegin (with_tail S s).cend) = true := by
          simp only [with_tail, slice_tail]; exact hre
        have eX := step_nested_call rec_call ecb (A ++ X) (with_tail X s) (a3 ++ X) hsX hkX hreX
        have eS := step_nested_call rec_call ecb (A ++ S) (with_tail S s) (a3 ++ S) hsS hkS hreS
        simp only [List.cons_append] at h ⊢
        rw [eX] at h
        rw [eS]
        cases hq : rec_call (a3 ++ X) (with_tail X s).tmp with
        | error f => rw [hq] at h; exact nomatch h
        | ok q =>
          rw [hq] at h
          simp only at h
          cases hqe : q.err with
          | true =>
            rw [hqe] at h
            simp only [if_true, Except.ok.injEq] at h
            rw [← h] at herr
            exact Bool.noConfusion herr
          | false =>
            rw [hqe] at h
            simp only [Bool.false_eq_true, if_false] at h
            have hn2 := run_needed rec_call ecb (A ++ X) _ _ (Nat.le_refl _)
              (by simp only [List.length_drop, List.length_append]; omega) r h herr
              (by simp only [List.length_append]; omega)
            simp only [needed, List.length_drop, List.length_append] at hn2
            have hb : (with_tail X s).boundary = s.boundary := rfl
            rw [hb] at hn2
            have hqp : q.pos + s.boundary.length + 4 ≤ a3.length := by omega
            have hdX : (a3 ++ X).drop q.pos = a3.drop q.pos ++ X :=
              List.drop_append_of_le_length (by omega)
            have hdS : (a3 ++ S).drop q.pos = a3.drop q.pos ++ S :=
              List.drop_append_of_le_length (by omega)
            have htk : (a3 ++ X).take q.pos = a3.take q.pos :=
              List.take_append_of_le_length (by omega)
            have hqS : rec_call (a3 ++ S) (with_tail S s).tmp = .ok q := by
              have := hrec (a3 ++ X) _ q hq hqe
                (by simp only [List.length_append]; omega) (a3.drop q.pos ++ S)
              rw [htk, ← List.append_assoc, List.take_append_drop] at this
              exact this
            rw [hqS]
            simp only [hqe, Bool.false_eq_true, if_false]
            rw [hdX] at h
            rw [hdS]
            have hfin :=
              ih { s with value := slice s.cbegin s.cend,
                          prototype := s.prototype ++ [(s.key, slice s.cbegin s.cend)],
                          in_ := a3.drop q.pos, tmp := q.ret, cbegin := a3.drop q.pos,
                          cend := a3.drop q.pos,
                          calls := invoke ecb.header_value_ .header_value
                            (slice s.cbegin s.cend) s.calls ++ q.calls,
                          state := .s_part_data }
                (by simp only [List.length_drop, List.length_cons] at hm ⊢; omega)
                (by simp only [List.length_drop, List.length_cons] at hA ⊢; omega) r
                (by simpa only [with_tail, slice_tail] using h) herr hpos
            simpa only [with_tail, slice_tail] using hfin
      · rw [step_tail_plain rec_call ecb A X s c a1 hns hcall] at h
        rw [step_tail_plain rec_call ecb A S s c a1 hns hcall]
        cases hst : step rec_call ecb A s c a1 with
        | stop o =>
          rw [hst] at h
          exact h
        | next s1 =>
          rw [hst] at h
          have hl := step_length hst
          exact ih s1 (by omega) (by omega) r h herr hpos

theorem decode_levels_tail : ∀ (k : Nat) (ecb : event_cb) (sp : List Char) (ret : part)
    (q : decoded), decode_levels k ecb sp ret = .ok q → q.err = false →
    q.pos < sp.length → ∀ S, decode_levels k ecb (sp.take q.pos ++ S) ret = .ok q := by
  intro k
  induction k with
  | zero =>
    intro ecb sp ret q h herr
    simp only [decode_levels, Except.ok.injEq] at h
    rw [← h] at herr
    exact Bool.noConfusion herr
  | succ k ih =>
    intro ecb sp ret q h herr hpos S
    cases sp with
    | nil => simp at hpos
    | cons c sp1 =>
      have h1 : run (decode_levels k ecb) ecb (c :: sp1) (initial_frame (c :: sp1) ret) =
          .ok q := h
      have hn := run_needed (decode_levels k ecb) ecb (c :: sp1) _
        (initial_frame (c :: sp1) ret) (Nat.le_refl _) (Nat.le_refl _) q h1 herr hpos
      have h4 : 4 ≤ needed (initial_frame (c :: sp1) ret) := by
        unfold needed; split <;> omega
      have hin : (initial_frame (c :: sp1) ret).in_ = c :: sp1 := rfl
      rw [hin] at hn
      have hsplit : c :: sp1 = (c :: sp1).take q.pos ++ (c :: sp1).drop q.pos :=
        (List.take_append_drop _ _).symm
      have hA : ((c :: sp1).take q.pos).length = q.pos :=
        List.length_take_of_le (by omega)
      have hX : (c :: sp1).drop q.pos ≠ [] := by
        intro hnil
        have := congrArg List.length hnil
        simp only [List.length_drop, List.length_nil] at this
        omega
      generalize (c :: sp1).take q.pos = A at hsplit hA ⊢
      generalize (c :: sp1).drop q.pos = X at hsplit hX
      rw [hsplit] at h1
      have h2 : run (decode_levels k ecb) ecb (A ++ X) (with_tail X (initial_frame A ret)) =
          .ok q := h1
      have h3 := run_two_tails (decode_levels k ecb) ecb (ih ecb) A X S hX A.length
        (initial_frame A ret) (Nat.le_refl _) (Nat.le_refl _) q h2 herr hA.symm
      cases A with
      | nil => simp only [List.length_nil] at hA; omega
      | cons a A1 => exact h3

theorem decode_recursive_tail (sp : List Char) (ret : part) (depth : Nat) (ecb : event_cb)
    (q : decoded) (h : decode_recursive sp ret depth ecb = .ok q) (herr : q.err = false)
    (hpos : q.pos < sp.length) (S : List Char) :
    decode_recursive (sp.take q.pos ++ S) ret depth ecb = .ok q :=
  decode_levels_tail _ ecb sp ret q h herr hpos S

theorem decode_recursive_final_delimiter (sp : List Char) (ret : part) (depth : Nat)
    (ecb : event_cb) (q : decoded) (h : decode_recursive sp ret depth ecb = .ok q)
    (herr : q.err = false) (hpos : q.pos < sp.length) :
    ∃ a b, sp.take q.pos = a ++ crlf ++ b ++ dashes ∧
      (q.ret.boundary = b ∨ ∃ rb rp l e, q.ret = .list rb rp (l ++ [e]) ∧ e.boundary = b) := by
  unfold decode_recursive at h
  cases hk : max_recursive_depth - depth with
  | zero =>
    rw [hk] at h
    simp only [decode_levels, Except.ok.injEq] at h
    rw [← h] at herr
    exact Bool.noConfusion herr
  | succ k =>
    rw [hk] at h
    cases sp with
    | nil => simp at hpos
    | cons c sp1 =>
      have h1 : run (decode_levels k ecb) ecb (c :: sp1) (initial_frame (c :: sp1) ret) =
          .ok q := h
      exact run_final_delimiter (decode_levels k ecb) ecb (c :: sp1) _
        (initial_frame (c :: sp1) ret) (Nat.le_refl _) (List.suffix_refl _) q h1 herr hpos

/-- C21. Stability of the decoder beyond the final delimiter: when `decode_recursive` returns on an
input `I` without error a tree `T` and a count `n` smaller than the length of
`I`, the `n` bytes consumed end with a CRLF, a boundary `b` and `--`, so the
bytes `I[n - |b| - 2 .. n)` are the final delimiter `b ++ "--"`, where `b` is
the boundary recorded for the part that this delimiter closed (`T` itself, or
the last child of the list `T`); and for every byte string `S` the call on the
first `n` bytes of `I` followed by `S` returns the same tree `T`, no error, the
same count `n`, and the same callback invocations.  This holds at every depth
and for every part passed in as `ret`. -/
theorem stable_beyond_final_delimiter (ecb : event_cb) (I : List Char) (ret : part) (depth : Nat)
    (T : part) (n : Nat) (cl : List callback_call)
    (h : decode_recursive I ret depth ecb = .ok ⟨T, false, n, cl⟩) (hn : n < I.length) :
    (∃ a b, I.take n = a ++ crlf ++ b ++ dashes ∧
      (I.take n).drop (n - b.length - 2) = b ++ dashes ∧
      (T.boundary = b ∨ ∃ rb rp l e, T = .list rb rp (l ++ [e]) ∧ e.boundary = b)) ∧
    ∀ S, decode_recursive (I.take n ++ S) ret depth ecb = .ok ⟨T, false, n, cl⟩ := by
  constructor
  · obtain ⟨a, b, hab, hT⟩ := decode_recursive_final_delimiter I ret depth ecb _ h rfl hn
    refine ⟨a, b, hab, ?_, hT⟩
    have hlen := congrArg List.length hab
    simp only [List.length_take, List.length_append, crlf, dashes, List.length_cons,
      List.length_nil] at hlen
    have hmin : min n I.length = n := by omega
    rw [hmin] at hlen
    simp only at hab
    rw [hab]
    have hd : n - b.length - 2 = (a ++ crlf).length := by
      simp only [List.length_append, crlf, List.length_cons, List.length_nil]; omega
    rw [hd, List.append_assoc (a ++ crlf) b dashes]
    exact List.drop_left _ _
  · intro S
    exact decode_recursive_tail I ret depth ecb _ h rfl hn S

set_option maxRecDepth 8192 in
/-- C21 at the nested message, whose outer final delimiter `--OUT--` is followed
by a CRLF that the decoder does not consume. -/
theorem stable_beyond_final_delimiter_witness :
    (decode_recursive nested_input Entry 0 no_callbacks = .ok ⟨nested_tree, false, 123, []⟩ ∧
      123 < nested_input.length) ∧
    ((∃ a b, nested_input.take 123 = a ++ crlf ++ b ++ dashes ∧
      (nested_input.take 123).drop (123 - b.length - 2) = b ++ dashes ∧
      (nested_tree.boundary = b ∨
        ∃ rb rp l e, nested_tree = .list rb rp (l ++ [e]) ∧ e.boundary = b)) ∧
    ∀ S, decode_recursive (nested_input.take 123 ++ S) Entry 0 no_callbacks =
      .ok ⟨nested_tree, false, 123, []⟩) :=
  ⟨⟨rfl, by decide⟩, stable_beyond_final_delimiter no_callbacks nested_input Entry 0 nested_tree 123 []
    rfl (by decide)⟩

theorem frame_after_run (rec_call : List Char → part → outcome) (ecb : event_cb)
    (sp : List Char) : ∀ (k : Nat) (s0 s : frame), frame_after rec_call ecb sp k s0 = some s →
    run rec_call ecb sp s0 = run rec_call ecb sp s := by
  intro k
  induction k with
  | zero =>
    intro s0 s h
    simp only [frame_after, Option.some.injEq] at h
    rw [h]
  | succ k ih =>
    intro s0 s h
    cases hin : s0.in_ with
    | nil => simp [frame_after, hin] at h
    | cons c in1 =>
      rw [run_cons _ _ _ _ c in1 hin]
      cases hst : step rec_call ecb sp s0 c in1 with
      | stop o => simp [frame_after, hin, hst] at h
      | next s1 =>
        simp only [frame_after, hin, hst] at h
        exact ih s1 s h

theorem short_site_run (rec_call : List Char → part → outcome) (ecb : event_cb)
    (sp : List Char) (s : frame) (tail : List Char) (hs : s.state = .s_part_data)
    (hin : s.in_ = '\r' :: '\n' :: tail) (hshort : tail.length < s.boundary.length + 2) :
    run rec_call ecb sp s = .ok ⟨s.ret, true, sp.length - tail.length, s.calls⟩ := by
  rw [run_cons _ _ _ _ '\r' ('\n' :: tail) hin]
  simp [step, hs, part_data_body, hshort, fail]

theorem meets_short_site_error (ecb : event_cb) (depth : Nat) (sp : List Char) (ret : part)
    (h : meets_short_site ecb depth sp ret) :
    ∃ r n cl, decode_recursive sp ret depth ecb = .ok ⟨r, true, n, cl⟩ := by
  induction h with
  | here depth sp ret k s tail hk hs hin hshort =>
    by_cases hd : depth < max_recursive_depth
    · cases sp with
      | nil => exact ⟨ret, 0, [], by unfold decode_recursive; cases max_recursive_depth - depth <;> rfl⟩
      | cons x sp1 =>
        rw [decode_recursive_eq _ _ _ _ hd (by simp), frame_after_run _ _ _ k _ s hk,
          short_site_run _ _ _ s tail hs hin hshort]
        exact ⟨_, _, _, rfl⟩
    · exact ⟨ret, 0, [], decode_recursive_depth sp ret depth ecb (by omega)⟩
  | nested depth sp ret k s in3 hk hin hcall _ ih =>
    by_cases hd : depth < max_recursive_depth
    · cases sp with
      | nil => exact ⟨ret, 0, [], by unfold decode_recursive; cases max_recursive_depth - depth <;> rfl⟩
      | cons x sp1 =>
        obtain ⟨r, n, cl, hr⟩ := ih
        obtain ⟨hs, _, _, hkey, hre⟩ := hcall
        rw [decode_recursive_eq _ _ _ _ hd (by simp), frame_after_run _ _ _ k _ s hk,
          run_cons _ _ _ _ '\r' _ hin, step_nested_call _ _ _ s in3 hs hkey hre]
        simp only [hr]
        exact ⟨_, _, _, rfl⟩
    · exact ⟨ret, 0, [], decode_recursive_depth sp ret depth ecb (by omega)⟩

theorem scan_short_site (rec_call : List Char → part → outcome) (ecb : event_cb)
    (sp : List Char) (tail b key value : List Char) (proto : prototype_type) (tmp ret : part)
    (calls : List callback_call) (hshort : tail.length < b.length + 2) :
    ∀ (c : List Char), no_delimiter_within b c ('\r' :: '\n' :: tail) = true →
      ∀ (cb ce : List Char), ∃ n,
      run rec_call ecb sp ⟨c ++ '\r' :: '\n' :: tail, .s_part_data, b, key, value, cb, ce, proto,
        tmp, ret, calls⟩ = .ok ⟨ret, true, n, calls⟩ := by
  intro c
  induction c with
  | nil =>
    intro _ cb ce
    refine ⟨sp.length - tail.length, ?_⟩
    rw [List.nil_append, run_cons _ _ _ _ '\r' ('\n' :: tail) rfl]
    simp [step, part_data_body, hshort, fail]
  | cons x c ih =>
    intro h cb ce
    simp only [List.cons_append, no_delimiter_within, Bool.and_eq_true, bne_iff_ne,
      ne_eq] at h
    obtain ⟨hx, hc⟩ := h
    rw [List.cons_append, run_cons _ _ _ _ x (c ++ '\r' :: '\n' :: tail) rfl]
    by_cases hr : x = '\r'
    · subst hr
      cases c with
      | nil =>
        obtain ⟨n, hn⟩ := ih hc cb ('\r' :: '\n' :: tail)
        exact ⟨n, by simpa [step, part_data_body] using hn⟩
      | cons y c =>
        by_cases hy : y = '\n'
        · subst hy
          by_cases hlen : (c ++ '\r' :: '\n' :: tail).length < b.length + 2
          · exact ⟨sp.length - (c ++ '\r' :: '\n' :: tail).length, by
              simp only [step, part_data_body, List.cons_append, if_true, ne_eq,
                not_true_eq_false, if_false, hlen, fail]⟩
          · obtain ⟨w2, w3⟩ := window_miss_short b (c ++ '\r' :: '\n' :: tail) hx
            obtain ⟨n, hn⟩ := ih hc cb ('\n' :: c ++ '\r' :: '\n' :: tail)
            refine ⟨n, ?_⟩
            simp only [step, part_data_body, List.cons_append, if_true, ne_eq,
              not_true_eq_false, if_false, hlen, w2, w3]
            exact hn
        · obtain ⟨n, hn⟩ := ih hc cb (y :: c ++ '\r' :: '\n' :: tail)
          exact ⟨n, by simpa [step, part_data_body, hy] using hn⟩
    · obtain ⟨n, hn⟩ := ih hc cb (c ++ '\r' :: '\n' :: tail)
      exact ⟨n, by simpa [step, part_data_body, hr] using hn⟩

theorem short_site_after_parts (ecb : event_cb) (b : List Char)
    (ps : List (prototype_type × List Char)) (hs : prototype_type) (c tail : List Char)
    (depth : Nat) (hb : well_formed_boundary b) (hps : ∀ p ∈ ps, well_formed_part b p)
    (hhs : well_formed_headers hs)
    (hno : no_delimiter_within b c (crlf ++ tail) = true)
    (hshort : tail.length < b.length + 2) :
    ∃ r n cl, decode_recursive
        (parts_text b ps ++ b ++ crlf ++ (header_lines hs ++ crlf ++ (c ++ crlf ++ tail)))
        Entry depth ecb = .ok ⟨r, true, n, cl⟩ := by
  by_cases hd : depth < max_recursive_depth
  · obtain ⟨ret1, key1, value1, calls1, h⟩ := decode_after_complete_parts ecb b
      (header_lines hs ++ crlf ++ (c ++ crlf ++ tail)) ps depth hb hps hd
    obtain ⟨key2, value2, h2⟩ := scan_headers
      (fun i t => decode_recursive i t (depth + 1) ecb) ecb
      (parts_text b ps ++ b ++ crlf ++ (header_lines hs ++ crlf ++ (c ++ crlf ++ tail)))
      (c ++ crlf ++ tail) b Entry ret1 hs hhs key1 value1 [] calls1
    have hno' : no_delimiter_within b c ('\r' :: '\n' :: tail) = true := by
      simpa [crlf] using hno
    obtain ⟨n, h3⟩ := scan_short_site (fun i t => decode_recursive i t (depth + 1) ecb) ecb
      (parts_text b ps ++ b ++ crlf ++ (header_lines hs ++ crlf ++ (c ++ crlf ++ tail)))
      tail b key2 value2 ([] ++ hs) Entry ret1 (header_calls ecb hs calls1) hshort c hno'
      (c ++ '\r' :: '\n' :: tail) (c ++ '\r' :: '\n' :: tail)
    simp only [crlf, List.append_assoc, List.cons_append, List.nil_append] at h h2 h3
    rw [h2, h3] at h
    simp only [crlf, List.append_assoc, List.cons_append, List.nil_append]
    exact ⟨_, _, _, h⟩
  · exact ⟨Entry, 0, [], decode_recursive_depth _ Entry depth ecb (by omega)⟩

/-- C12. Short boundary site: whenever a call of `decode_recursive`, at any depth
and on any input, comes in the part data of its own level or of a nested level
to a CR LF pair followed by fewer than `boundary.length() + 2` remaining bytes
(with `boundary` the boundary string of that level), it returns with the error
flag set, and `decode` returns the default part.  In particular this is so for
every input made of an opening line, any number of complete well-formed parts,
a well-formed header block, and data `c ++ CRLF ++ tail` in which no position
of `c` starts a CRLF followed by the boundary and `tail` has fewer than
`boundary.length() + 2` bytes; nothing is asked of `tail`, which may begin
with the boundary or a truncated delimiter. -/
theorem short_boundary_site (ecb : event_cb) :
    (∀ (sp : List Char) (ret : part) (depth : Nat), meets_short_site ecb depth sp ret →
      ∃ r n cl, decode_recursive sp ret depth ecb = .ok ⟨r, true, n, cl⟩) ∧
    (∀ sp : List Char, meets_short_site ecb 0 sp Entry → decode sp ecb = .ok Entry) ∧
    (∀ (b : List Char) (ps : List (prototype_type × List Char)) (hs : prototype_type)
        (c tail : List Char),
      well_formed_boundary b → (∀ p ∈ ps, well_formed_part b p) → well_formed_headers hs →
      no_delimiter_within b c (crlf ++ tail) = true → tail.length < b.length + 2 →
      (∀ depth : Nat, ∃ r n cl, decode_recursive
        (parts_text b ps ++ b ++ crlf ++ (header_lines hs ++ crlf ++ (c ++ crlf ++ tail)))
        Entry depth ecb = .ok ⟨r, true, n, cl⟩) ∧
      decode (parts_text b ps ++ b ++ crlf ++ (header_lines hs ++ crlf ++ (c ++ crlf ++ tail)))
        ecb = .ok Entry) := by
  refine ⟨fun sp ret depth h => meets_short_site_error ecb depth sp ret h, ?_, ?_⟩
  · intro sp h
    obtain ⟨r, n, cl, hr⟩ := meets_short_site_error ecb 0 sp Entry h
    exact decode_of_error _ _ _ _ _ hr
  · intro b ps hs c tail hb hps hhs hno hshort
    refine ⟨fun depth => short_site_after_parts ecb b ps hs c tail depth hb hps hhs hno hshort, ?_⟩
    obtain ⟨r, n, cl, hr⟩ := short_site_after_parts ecb b ps hs c tail 0 hb hps hhs hno hshort
    exact decode_of_error _ _ _ _ _ hr

set_option maxRecDepth 8192 in
/-- C12 at content `ab` followed by CRLF and the four bytes `--B-`, a final
delimiter cut one byte short, and at the nested message cut inside the inner
final delimiter. -/
theorem short_boundary_site_witness :
    (well_formed_boundary "--B".toList ∧ well_formed_headers [("K".toList, "V".toList)] ∧
      no_delimiter_within "--B".toList "ab".toList (crlf ++ "--B-".toList) = true ∧
      "--B-".toList.length < "--B".toList.length + 2) ∧
    decode "--B\r\nK: V\r\n\r\nab\r\n--B-".toList no_callbacks = .ok Entry ∧
    meets_short_site no_callbacks 0 nested_short_site Entry ∧
    decode nested_short_site no_callbacks = .ok Entry :=
  have hm : meets_short_site no_callbacks 0 nested_short_site Entry :=
    meets_short_site.nested 0 nested_short_site Entry 45 _ "--I\r\nK: V\r\n\r\nab\r\n--I".toList
      rfl rfl ⟨rfl, rfl, ⟨_, rfl⟩, rfl, rfl⟩
      (meets_short_site.here 1 _ _ 10 _ "--I".toList rfl rfl rfl (by decide))
  ⟨⟨by decide, by decide, by decide, by decide⟩,
    ((short_boundary_site no_callbacks).2.2 "--B".toList [] [("K".toList, "V".toList)]
      "ab".toList "--B-".toList (by decide) (by decide) (by decide) (by decide) (by decide)).2,
    hm, (short_boundary_site no_callbacks).2.1 nested_short_site hm⟩

end multipart
